import Mathlib

set_option maxRecDepth 8000

/-!
Shallow embedding of the line-oriented source-to-source converters of
the CodeConverterHub repository: `convertJavaScriptToPython`,
`convertJavaScriptToSwift` and `convertPythonToJavaScript` from
`src/server/github-api.ts` (and their byte-identical copies inside the
route handler of `src/server/routes.ts`), together with the
language-pair dispatch that surrounds them.

Lines are lists of characters.  Every JavaScript regular expression
used by the converters is implemented by a dedicated matching function
that reproduces the relevant behaviour of the JavaScript regex engine
on that pattern: ordered alternation, greedy and lazy repetition, the
backtracking points that those particular patterns can actually
exercise, and unanchored left-to-right search.  Only the ASCII
whitespace characters are modelled for `\s` / `trim`.
-/

/-- A line of source text, as a list of characters. -/
abbrev Line := List Char

/-- The ASCII whitespace characters matched by JavaScript's `\s` and
removed by `String.prototype.trim` (non-ASCII whitespace is not
modelled). -/
def isSpc (c : Char) : Bool :=
  c = ' ' || c = '\t' || c = '\n' || c = '\r' || c = '\x0b' || c = '\x0c'

/-- JavaScript `\w` word characters (`[A-Za-z0-9_]`). -/
def isWordChar (c : Char) : Bool :=
  c.isAlpha || c.isDigit || c = '_'

/-- `String.prototype.trim`. -/
def trimL (l : Line) : Line :=
  ((l.dropWhile isSpc).reverse.dropWhile isSpc).reverse

/-- `line.search(/\S|$/)`: the number of leading whitespace characters
(the whole length for an all-whitespace line). -/
def leadingWS (l : Line) : Nat := (l.takeWhile isSpc).length

/-- `sourceCode.split("\n")`. -/
def splitLinesL : Line → List Line
  | [] => [[]]
  | c :: cs =>
    match splitLinesL cs with
    | [] => [[c]]
    | r :: rs => if c = '\n' then [] :: r :: rs else (c :: r) :: rs

/-- `convertedLines.join("\n")`. -/
def joinLinesL : List Line → Line
  | [] => []
  | [l] => l
  | l :: l' :: ls => l ++ '\n' :: joinLinesL (l' :: ls)

/-- `s.repeat(n)` (used for the two- and four-space indent units). -/
def repeatL (s : Line) : Nat → Line
  | 0 => []
  | n + 1 => s ++ repeatL s n

/-- Boolean literal-prefix test. -/
def pfx : Line → Line → Bool
  | [], _ => true
  | _ :: _, [] => false
  | p :: ps, c :: cs => p = c && pfx ps cs

/-- Drop a literal prefix, or fail. -/
def stripPfx : Line → Line → Option Line
  | [], l => some l
  | _ :: _, [] => none
  | p :: ps, c :: cs => if p = c then stripPfx ps cs else none

/-- Split at the first occurrence of a character:
`splitAtFirst a l = some (pre, post)` with `l = pre ++ a :: post` and
`a ∉ pre`. -/
def splitAtFirst (a : Char) : Line → Option (Line × Line)
  | [] => none
  | c :: cs =>
    if c = a then some ([], cs)
    else
      match splitAtFirst a cs with
      | some (pre, post) => some (c :: pre, post)
      | none => none

/-- Split at the last occurrence of a character:
`splitAtLast a l = some (pre, post)` with `l = pre ++ a :: post` and
`a ∉ post`.  This is the decomposition produced by a greedy `(.*)`
followed by the literal `a`. -/
def splitAtLast (a : Char) (l : Line) : Option (Line × Line) :=
  match splitAtFirst a l.reverse with
  | some (p, q) => some (q.reverse, p.reverse)
  | none => none

/-- Split at the leftmost occurrence of a substring:
`splitAtSub p l = some (pre, post)` with `l = pre ++ p ++ post`.  This
is the decomposition produced by a lazy `(.*?)` followed by the literal
`p`, and also the first-match position of an unanchored search for a
pattern that starts with the literal `p`. -/
def splitAtSub (p : Line) : Line → Option (Line × Line)
  | [] => if pfx p [] then some ([], []) else none
  | c :: cs =>
    if pfx p (c :: cs) then some ([], (c :: cs).drop p.length)
    else
      match splitAtSub p cs with
      | some (pre, post) => some (c :: pre, post)
      | none => none

/-- Greedy `\w+` at the current position: the leading word-character
run and the remainder. -/
def takeWord (l : Line) : Line × Line :=
  (l.takeWhile isWordChar, l.dropWhile isWordChar)

/-- Last character of a line (a space for the empty line; only ever
used on nonempty lines). -/
def lastCh (l : Line) : Char := l.getLast?.getD ' '

/-- `s.split(",")` with JavaScript semantics (empty pieces kept). -/
def splitOnComma : Line → List Line
  | [] => [[]]
  | c :: cs =>
    match splitOnComma cs with
    | [] => [[c]]
    | r :: rs => if c = ',' then [] :: r :: rs else (c :: r) :: rs

/-- `condition.replace(/===?/g, "==")`: global leftmost replacement,
greedy (`===` preferred over `==` at each position; scanning resumes
after the replacement). -/
def replaceEqOps : Line → Line
  | [] => []
  | [a] => [a]
  | [a, b] => if a = '=' && b = '=' then ['=', '='] else a :: replaceEqOps [b]
  | a :: b :: d :: rest =>
    if a = '=' && b = '=' then
      if d = '=' then '=' :: '=' :: replaceEqOps rest
      else '=' :: '=' :: replaceEqOps (d :: rest)
    else a :: replaceEqOps (b :: d :: rest)

/-- `condition.replace(/!==?/g, "!=")`. -/
def replaceNeqOps : Line → Line
  | [] => []
  | [a] => [a]
  | [a, b] => if a = '!' && b = '=' then ['!', '='] else a :: replaceNeqOps [b]
  | a :: b :: d :: rest =>
    if a = '!' && b = '=' then
      if d = '=' then '!' :: '=' :: replaceNeqOps rest
      else '!' :: '=' :: replaceNeqOps (d :: rest)
    else a :: replaceNeqOps (b :: d :: rest)

/-! ### Matchers for the JavaScript-source regular expressions -/

/-- One attempt of `/function\s+(\w+)\s*\((.*?)\)(.*)/` anchored at the
start of `l`: the literal `function`, at least one whitespace, a greedy
word (the name), optional whitespace, `(`, the lazy parameter capture
up to the first `)`, and the greedy rest-of-line capture. -/
def funcDeclAt (l : Line) : Option (Line × Line × Line) :=
  match stripPfx ("function".data) l with
  | none => none
  | some r1 =>
    if (r1.takeWhile isSpc).isEmpty then none
    else
      let r2 := r1.dropWhile isSpc
      let (w, r3) := takeWord r2
      if w.isEmpty then none
      else
        match r3.dropWhile isSpc with
        | '(' :: r5 =>
          match splitAtFirst ')' r5 with
          | some (params, rest) => some (w, params, rest)
          | none => none
        | _ => none

/-- The unanchored search `line.match(/function\s+(\w+)\s*\((.*?)\)(.*)/)`
(groups 1–3).  The engine retries the pattern at successive start
positions until it succeeds. -/
def funcDeclSearch : Line → Option (Line × Line × Line)
  | [] => none
  | c :: cs =>
    match funcDeclAt (c :: cs) with
    | some r => some r
    | none => funcDeclSearch cs

/-- `line.match(/^\s*if\s*\((.*)\)(.*)/)` (groups 1 and 2): the greedy
condition capture runs to the last `)` of the line.  The branch guard
`/^\s*if\s*\((.*)\).*\x7b?$/` matches exactly when this does. -/
def ifMatchJs (l : Line) : Option (Line × Line) :=
  match stripPfx ("if".data) (l.dropWhile isSpc) with
  | none => none
  | some r1 =>
    match r1.dropWhile isSpc with
    | '(' :: r2 => splitAtLast ')' r2
    | _ => none

/-- The tail `\s*(.+?);?$`: greedy whitespace, then the lazy value
capture, which drops one trailing `;` when that still leaves the
capture nonempty; when everything after the `=` is whitespace the
backtracked capture is the last whitespace character. -/
def lazyToEndField (s : Line) : Option Line :=
  let r := s.dropWhile isSpc
  if r.isEmpty then
    if s.isEmpty then none else some [lastCh s]
  else if lastCh r = ';' && r.length ≥ 2 then some r.dropLast
  else some r

/-- One keyword alternative of the declaration regex: the literal
keyword, `\s+`, the `\w+` name, `\s*=\s*` and the value tail. -/
def varTryKw (kw r0 : Line) : Option (Line × Line × Line) :=
  match stripPfx kw r0 with
  | none => none
  | some r1 =>
    if (r1.takeWhile isSpc).isEmpty then none
    else
      let r2 := r1.dropWhile isSpc
      let (w, r3) := takeWord r2
      if w.isEmpty then none
      else
        match r3.dropWhile isSpc with
        | '=' :: r4 =>
          match lazyToEndField r4 with
          | some v => some (kw, w, v)
          | none => none
        | _ => none

/-- `line.match(/^\s*(var|let|const)\s+(\w+)\s*=\s*(.+?);?$/)` (groups
1–3, with the alternation tried in source order; the branch guard with a
greedy `(.+)` matches exactly when this does). -/
def varDeclMatch (l : Line) : Option (Line × Line × Line) :=
  let r0 := l.dropWhile isSpc
  match varTryKw ("var".data) r0 with
  | some r => some r
  | none =>
    match varTryKw ("let".data) r0 with
    | some r => some r
    | none => varTryKw ("const".data) r0

/-- The tail `\s+(.+?);?$` of `/return\s+(.+?);?$/` after the literal
`return`. -/
def returnTail (s : Line) : Option Line :=
  let sp := s.takeWhile isSpc
  if sp.isEmpty then none
  else
    let r := s.dropWhile isSpc
    if r.isEmpty then
      if sp.length ≥ 2 then some [lastCh sp] else none
    else if lastCh r = ';' && r.length ≥ 2 then some r.dropLast
    else some r

/-- The unanchored search `line.match(/return\s+(.+?);?$/)` (group 1). -/
def returnSearch : Line → Option Line
  | [] => none
  | c :: cs =>
    match stripPfx ("return".data) (c :: cs) with
    | some rest =>
      match returnTail rest with
      | some v => some v
      | none => returnSearch cs
    | none => returnSearch cs

/-- `line.match(/^\s*return\s+/)`. -/
def returnGuard (l : Line) : Bool :=
  match stripPfx ("return".data) (l.dropWhile isSpc) with
  | some r => !(r.takeWhile isSpc).isEmpty
  | none => false

/-- `line.match(/console\.log\(/)`. -/
def hasConsoleLog (l : Line) : Bool := (splitAtSub ("console.log(".data) l).isSome

/-- `line.replace(/console\.log\((.*)\);?/, "print($1)")`: the first
match starts at the leftmost `console.log(`, the greedy group runs to
the last `)` of the line, and an immediately following `;` is consumed;
a line the pattern does not match is returned unchanged. -/
def consoleLogReplaced (l : Line) : Line :=
  match splitAtSub ("console.log(".data) l with
  | none => l
  | some (before, rest) =>
    match splitAtLast ')' rest with
    | none => l
    | some (grp, post) =>
      let post' := match post with
        | ';' :: t => t
        | t => t
      before ++ ("print(".data) ++ grp ++ ')' :: post'

/-- `line.match(/^\s*for\s*\(/)`. -/
def forGuardJs (l : Line) : Bool :=
  match stripPfx ("for".data) (l.dropWhile isSpc) with
  | some r =>
    match r.dropWhile isSpc with
    | '(' :: _ => true
    | _ => false
  | none => false

/-- Capture groups 2–5 of the three-clause for-header regex
`/for\s*\(\s*(let|var|const)?\s*(\w+)\s*=\s*([^;]+);\s*\2\s*(<|<=|>|>=)\s*([^;]+);\s*\2(\+\+|\-\-|.=.*)\)/`. -/
structure ForCaps where
  v : Line
  start : Line
  op : Line
  stop : Line
deriving Repr, DecidableEq

/-- `\s*([^;]+);`: greedy whitespace, the greedy nonempty non-`;`
field, then the `;`.  Returns the field capture and the text after the
`;`.  When everything before the first `;` is whitespace, the engine
backtracks `\s*` one step and captures the last whitespace character. -/
def semicolonField (s : Line) : Option (Line × Line) :=
  match splitAtFirst ';' s with
  | none => none
  | some (pre, post) =>
    if pre.isEmpty then none
    else
      let f := pre.dropWhile isSpc
      some (if f.isEmpty then [lastCh pre] else f, post)

/-- `(\+\+|\-\-|.=.*)\)` at the current position, with the regex's
ordered alternation: `++` or `--` must be followed immediately by `)`,
and the wildcard alternative needs any character, `=`, then some later
`)`. -/
def incrClose (s : Line) : Bool :=
  match s with
  | '+' :: '+' :: ')' :: _ => true
  | '-' :: '-' :: ')' :: _ => true
  | _ :: '=' :: rest => rest.contains ')'
  | _ => false

/-- `\s*\2(\+\+|\-\-|.=.*)\)` after the end-field's `;`: whitespace,
the backreference to the loop variable, then the increment clause. -/
def forTail (v s : Line) : Bool :=
  match stripPfx v (s.dropWhile isSpc) with
  | some s2 => incrClose s2
  | none => false

/-- `\s*([^;]+);\s*\2(\+\+|\-\-|.=.*)\)` after the comparison operator:
returns the end-expression capture (group 5). -/
def afterOp (v s : Line) : Option Line :=
  match semicolonField s with
  | some (f, post) => if forTail v post then some f else none
  | none => none

/-- The ordered alternation `(<|<=|>|>=)` followed by the remainder of
the for-header pattern; returns the operator capture (group 4) and the
end-expression capture (group 5). -/
def opEnd (v : Line) : Line → Option (Line × Line)
  | '<' :: rest =>
    (match afterOp v rest with
     | some e => some (['<'], e)
     | none =>
       match rest with
       | '=' :: r2 =>
         (match afterOp v r2 with
          | some e => some (['<', '='], e)
          | none => none)
       | _ => none)
  | '>' :: rest =>
    (match afterOp v rest with
     | some e => some (['>'], e)
     | none =>
       match rest with
       | '=' :: r2 =>
         (match afterOp v r2 with
          | some e => some (['>', '='], e)
          | none => none)
       | _ => none)
  | _ => none

/-- `(\w+)\s*=\s*([^;]+);\s*\2\s*(<|<=|>|>=)…` from the position after
the optional declaration keyword. -/
def forCore (s : Line) : Option ForCaps :=
  let s1 := s.dropWhile isSpc
  let (w, s2) := takeWord s1
  if w.isEmpty then none
  else
    match s2.dropWhile isSpc with
    | '=' :: s3 =>
      match semicolonField s3 with
      | some (sv, post) =>
        match stripPfx w (post.dropWhile isSpc) with
        | some s4 =>
          match opEnd w (s4.dropWhile isSpc) with
          | some (o, e) => some ⟨w, sv, o, e⟩
          | none => none
        | none => none
      | none => none
    | _ => none

/-- One ordered alternative of the optional `(let|var|const)?`: consume
the keyword literal and run the rest of the pattern. -/
def tryKwAt (kw r4 : Line) : Option ForCaps :=
  match stripPfx kw r4 with
  | some r5 => forCore r5
  | none => none

/-- First-success choice between ordered regex alternatives. -/
def orElseO (a b : Option ForCaps) : Option ForCaps :=
  match a with
  | some c => some c
  | none => b

/-- One attempt of the full for-header regex at the start of `l`, with
the ordered alternatives of the optional `(let|var|const)?` (tried in
the regex's order `let`, `var`, `const`, empty). -/
def forHeaderAt (l : Line) : Option ForCaps :=
  match stripPfx ("for".data) l with
  | none => none
  | some r1 =>
    match r1.dropWhile isSpc with
    | '(' :: r3 =>
      let r4 := r3.dropWhile isSpc
      orElseO (tryKwAt ("let".data) r4)
        (orElseO (tryKwAt ("var".data) r4)
          (orElseO (tryKwAt ("const".data) r4) (forCore r4)))
    | _ => none

/-- The unanchored search for the three-clause for-header (capture
groups 2–5). -/
def forHeaderMatch : Line → Option ForCaps
  | [] => none
  | c :: cs =>
    match forHeaderAt (c :: cs) with
    | some r => some r
    | none => forHeaderMatch cs

/-- `", "`-join of a nonempty split (JavaScript `Array.prototype.join`). -/
def joinCommaSp : List Line → Line
  | [] => []
  | [x] => x
  | x :: y :: ys => x ++ (", ".data) ++ joinCommaSp (y :: ys)

/-- The JS→Swift parameter rewrite:
`params.split(",").map(p => p.trim() ? p.trim() + ": Any" : p.trim()).join(", ")`. -/
def swiftParams (params : Line) : Line :=
  joinCommaSp ((splitOnComma params).map fun p =>
    let t := trimL p
    if t.isEmpty then t else t ++ (": Any".data))

/-! ### Matchers for the Python-source regular expressions -/

/-- `/^def\s+(\w+)\s*\((.*?):/` — precisely
`/^def\s+(\w+)\s*\((.*?)\):/` (groups 1 and 2): the lazy parameter
capture runs to the first `):`. -/
def defMatch (l : Line) : Option (Line × Line) :=
  match stripPfx ("def".data) l with
  | none => none
  | some r1 =>
    if (r1.takeWhile isSpc).isEmpty then none
    else
      let r2 := r1.dropWhile isSpc
      let (w, r3) := takeWord r2
      if w.isEmpty then none
      else
        match r3.dropWhile isSpc with
        | '(' :: r4 =>
          match splitAtSub ("):".data) r4 with
          | some (params, _) => some (w, params)
          | none => none
        | _ => none

/-- The tail `\s+(.+):`: at least one whitespace (greedy, with
backtracking), then the greedy capture up to the last `:` preceded by
at least one captured character. -/
def spacesFieldColon (s : Line) : Option Line :=
  let sp := s.takeWhile isSpc
  if sp.isEmpty then none
  else
    let r := s.dropWhile isSpc
    match splitAtLast ':' r with
    | none => none
    | some (b, _) =>
      if b.isEmpty then
        if sp.length ≥ 2 then some [lastCh sp] else none
      else some b

/-- `trimmedLine.match(/^if\s+(.+):/)` (group 1). -/
def ifMatchPy (l : Line) : Option Line :=
  match stripPfx ("if".data) l with
  | none => none
  | some r => spacesFieldColon r

/-- `trimmedLine.match(/^for\s+(\w+)\s+in\s+(.+):/)` (groups 1, 2). -/
def forMatchPy (l : Line) : Option (Line × Line) :=
  match stripPfx ("for".data) l with
  | none => none
  | some r1 =>
    if (r1.takeWhile isSpc).isEmpty then none
    else
      let r2 := r1.dropWhile isSpc
      let (w, r3) := takeWord r2
      if w.isEmpty then none
      else
        if (r3.takeWhile isSpc).isEmpty then none
        else
          match stripPfx ("in".data) (r3.dropWhile isSpc) with
          | none => none
          | some r4 =>
            match spacesFieldColon r4 with
            | some it => some (w, it)
            | none => none

/-- One attempt of `/range\((.+)\)/` at the current position. -/
def rangeAt (l : Line) : Option Line :=
  match stripPfx ("range(".data) l with
  | some rest =>
    match splitAtLast ')' rest with
    | some (g, _) => if g.isEmpty then none else some g
    | none => none
  | none => none

/-- `iterable.match(/range\((.+)\)/)` (group 1; unanchored search,
greedy group up to the last `)`). -/
def rangeMatch : Line → Option Line
  | [] => none
  | c :: cs =>
    match rangeAt (c :: cs) with
    | some g => some g
    | none => rangeMatch cs

/-- `trimmedLine.match(/^print\s*\((.*)\)/)` (group 1; the greedy group
runs to the last `)`; it may be empty). -/
def printMatchPy (l : Line) : Option Line :=
  match stripPfx ("print".data) l with
  | none => none
  | some r1 =>
    match r1.dropWhile isSpc with
    | '(' :: r2 =>
      match splitAtLast ')' r2 with
      | some (g, _) => some g
      | none => none
    | _ => none

/-- The tail `\s*(.+)` to the end of the line. -/
def spacesRest (s : Line) : Option Line :=
  let r := s.dropWhile isSpc
  if r.isEmpty then
    if s.isEmpty then none else some [lastCh s]
  else some r

/-- `trimmedLine.match(/^(\w+)\s*=\s*(.+)/)` (groups 1, 2). -/
def assignMatchPy (l : Line) : Option (Line × Line) :=
  let (w, r1) := takeWord l
  if w.isEmpty then none
  else
    match r1.dropWhile isSpc with
    | '=' :: r2 =>
      match spacesRest r2 with
      | some v => some (w, v)
      | none => none
    | _ => none

/-- The tail `\s+(.+)` (at least one whitespace). -/
def spacesPlusRest (s : Line) : Option Line :=
  let sp := s.takeWhile isSpc
  if sp.isEmpty then none
  else
    let r := s.dropWhile isSpc
    if r.isEmpty then
      if sp.length ≥ 2 then some [lastCh sp] else none
    else some r

/-- `trimmedLine.match(/^return\s+(.+)/)` (group 1). -/
def returnMatchPy (l : Line) : Option Line :=
  match stripPfx ("return".data) l with
  | none => none
  | some r => spacesPlusRest r

/-! ### The converters of `src/server/github-api.ts` -/

namespace GitHubApi

/-- The `convertedLine` / `newIndentLevel` computation of one loop
iteration of `convertJavaScriptToPython` (github-api.ts, lines
146–228), for a nonempty non-comment trimmed line.  An empty
`convertedLine` (the bare-brace branches) is not pushed. -/
def jsToPyLine (line : Line) (ind : Int) : Line × Int :=
  match funcDeclSearch line with
  | some (name, params, _) =>
    (("def ".data) ++ name ++ '(' :: params ++ ("):".data), ind + 1)
  | none =>
    if line = ['\x7b'] then ([], ind + 1)
    else if line = ['\x7d'] then ([], max 0 (ind - 1))
    else
      match varDeclMatch line with
      | some (_, name, value) =>
        let cl := name ++ (" = ".data) ++ value
        (if lastCh cl = ';' then cl.dropLast else cl, ind)
      | none =>
        match ifMatchJs line with
        | some (cond, _) =>
          (("if ".data) ++ replaceNeqOps (replaceEqOps (trimL cond)) ++ [':'], ind + 1)
        | none =>
          if forGuardJs line then
            match forHeaderMatch line with
            | some cp =>
              (("for ".data) ++ cp.v ++ (" in range(".data) ++ cp.start ++
                (", ".data) ++ cp.stop ++ ("):".data), ind + 1)
            | none => (("# MANUAL CONVERSION NEEDED: ".data) ++ line, ind)
          else if hasConsoleLog line then (consoleLogReplaced line, ind)
          else if returnGuard line then
            ((match returnSearch line with
              | some v => ("return ".data) ++ v
              | none => line), ind)
          else (if lastCh line = ';' then line.dropLast else line, ind)

/-- One loop iteration of `convertJavaScriptToPython` (github-api.ts,
lines 129–236): the lines pushed for one raw source line, and the
updated `indentLevel`.  The line is pushed with the indentation of the
*old* level; `indentLevel = newIndentLevel` happens afterwards. -/
def jsToPyStep (ind : Int) (rawLine : Line) : List Line × Int :=
  let line := trimL rawLine
  if line.isEmpty then ([[]], ind)
  else if pfx ("//".data) line then
    ([repeatL ("    ".data) ind.toNat ++ ("# ".data) ++ line.drop 2], ind)
  else
    let r := jsToPyLine line ind
    (if r.1.isEmpty then [] else [repeatL ("    ".data) ind.toNat ++ r.1], r.2)

/-- The loop of `convertJavaScriptToPython` over all lines. -/
def jsToPyGo : List Line → Int → List Line
  | [], _ => []
  | l :: ls, ind =>
    let r := jsToPyStep ind l
    r.1 ++ jsToPyGo ls r.2

/-- `convertJavaScriptToPython` (github-api.ts, lines 122–239). -/
def convertJavaScriptToPython (s : String) : String :=
  String.mk (joinLinesL (jsToPyGo (splitLinesL s.data) 0))

/-- The `convertedLine` / `indentLevel` computation of one loop
iteration of `convertJavaScriptToSwift` (github-api.ts, lines
263–372), for a nonempty non-comment trimmed line.  The guarded
`value.replace(/\[([^\]]*)\]/, "[$1]")` of the variable branch
replaces the matched text with itself and is therefore the identity.
The branches mutate `indentLevel` before the push. -/
def jsToSwiftLine (line : Line) (ind : Int) : Line × Int :=
  match funcDeclSearch line with
  | some (name, params, rest) =>
    if rest.contains '\x7b' then
      (("func ".data) ++ name ++ '(' :: swiftParams params ++ (") \x7b".data), ind + 1)
    else
      (("func ".data) ++ name ++ '(' :: swiftParams params ++ [')'], ind)
  | none =>
    if line = ['\x7b'] then (['\x7b'], ind + 1)
    else if line = ['\x7d'] then (['\x7d'], max 0 (ind - 1))
    else
      match varDeclMatch line with
      | some (kw, name, value) =>
        ((if kw = ("const".data) then "let ".data else "var ".data) ++
          name ++ (" = ".data) ++ value, ind)
      | none =>
        match ifMatchJs line with
        | some (cond, rest) =>
          let c := replaceNeqOps (replaceEqOps (trimL cond))
          if rest.contains '\x7b' then (("if ".data) ++ c ++ (" \x7b".data), ind + 1)
          else (("if ".data) ++ c, ind)
        | none =>
          if forGuardJs line then
            match forHeaderMatch line with
            | some cp =>
              (if cp.op = ['<'] then
                ("for ".data) ++ cp.v ++ (" in ".data) ++ cp.start ++
                  ("..<".data) ++ cp.stop ++ (" \x7b".data)
              else if cp.op = ['<', '='] then
                ("for ".data) ++ cp.v ++ (" in ".data) ++ cp.start ++
                  ("...".data) ++ cp.stop ++ (" \x7b".data)
              else
                ("// Note: This for loop might need manual adjustment\nfor ".data) ++
                  cp.v ++ (" in ".data) ++ cp.start ++ ("..<".data) ++ cp.stop ++
                  (" \x7b // Original condition was ".data) ++ cp.v ++
                  ' ' :: cp.op ++ ' ' :: cp.stop,
               ind + 1)
            | none => (("// MANUAL CONVERSION NEEDED: ".data) ++ line, ind)
          else if hasConsoleLog line then (consoleLogReplaced line, ind)
          else if returnGuard line then
            ((match returnSearch line with
              | some v => ("return ".data) ++ v
              | none => line), ind)
          else (line, ind)

/-- One loop iteration of `convertJavaScriptToSwift` (github-api.ts,
lines 247–376).  Every line is pushed, with the indentation of the
*already updated* `indentLevel` (the branches increment it before the
push at line 375). -/
def jsToSwiftStep (ind : Int) (rawLine : Line) : List Line × Int :=
  let line := trimL rawLine
  if line.isEmpty then ([[]], ind)
  else if pfx ("//".data) line then
    ([repeatL ("  ".data) ind.toNat ++ line], ind)
  else
    let r := jsToSwiftLine line ind
    ([repeatL ("  ".data) r.2.toNat ++ r.1], r.2)

/-- The loop of `convertJavaScriptToSwift` over all lines. -/
def jsToSwiftGo : List Line → Int → List Line
  | [], _ => []
  | l :: ls, ind =>
    let r := jsToSwiftStep ind l
    r.1 ++ jsToSwiftGo ls r.2

/-- `convertJavaScriptToSwift` (github-api.ts, lines 241–379). -/
def convertJavaScriptToSwift (s : String) : String :=
  String.mk (joinLinesL (jsToSwiftGo (splitLinesL s.data) 0))

/-- The un-indent `while` loop of `convertPythonToJavaScript`
(github-api.ts, lines 409–413): pop while the stack has more than one
entry and its top exceeds the current leading-whitespace count,
emitting one closing brace per pop at the post-pop depth.  The stack's
top is the head of the list. -/
def pyPopLoop : List Nat → Nat → List Line × List Nat
  | top :: r :: rs, w =>
    if w < top then
      let rec' := pyPopLoop (r :: rs) w
      ((repeatL ("  ".data) ((r :: rs).length - 1) ++ ['\x7d']) :: rec'.1, rec'.2)
    else ([], top :: r :: rs)
  | st, _ => ([], st)

/-- The `convertedLine` computation of `convertPythonToJavaScript`
(github-api.ts, lines 423–503) for a nonempty non-comment trimmed
line. -/
def pyLineConvert (t : Line) : Line :=
  match defMatch t with
  | some (name, params) =>
    ("function ".data) ++ name ++ '(' :: params ++ (") \x7b".data)
  | none =>
    match ifMatchPy t with
    | some cond => ("if (".data) ++ trimL cond ++ (") \x7b".data)
    | none =>
      match forMatchPy t with
      | some (v, it) =>
        (match rangeMatch it with
         | some g =>
           let args := (splitOnComma g).map trimL
           match args with
           | [a] =>
             ("for (let ".data) ++ v ++ (" = 0; ".data) ++ v ++ (" < ".data) ++
               a ++ ("; ".data) ++ v ++ ("++) \x7b".data)
           | [a, b] =>
             ("for (let ".data) ++ v ++ (" = ".data) ++ a ++ ("; ".data) ++ v ++
               (" < ".data) ++ b ++ ("; ".data) ++ v ++ ("++) \x7b".data)
           | [a, b, c] =>
             ("for (let ".data) ++ v ++ (" = ".data) ++ a ++ ("; ".data) ++ v ++
               (" < ".data) ++ b ++ ("; ".data) ++ v ++ (" += ".data) ++ c ++
               (") \x7b".data)
           | _ => t
         | none => ("for (let ".data) ++ v ++ (" of ".data) ++ it ++ (") \x7b".data))
      | none =>
        match printMatchPy t with
        | some content => ("console.log(".data) ++ content ++ (");".data)
        | none =>
          match assignMatchPy t with
          | some (name, value) => ("let ".data) ++ name ++ (" = ".data) ++ value ++ [';']
          | none =>
            match returnMatchPy t with
            | some v => ("return ".data) ++ v ++ [';']
            | none =>
              if lastCh t = ':' || lastCh t = '\x7b' || lastCh t = '\x7d' then t
              else t ++ [';']

/-- One loop iteration of `convertPythonToJavaScript` (github-api.ts,
lines 388–507): the pushed lines (synthetic closes first), the new
indent stack, and the new `currentIndent`. -/
def pyToJsStep (stack : List Nat) (cur : Nat) (rawLine : Line) :
    List Line × List Nat × Nat :=
  let trimmedLine := trimL rawLine
  if trimmedLine.isEmpty then ([[]], stack, cur)
  else if pfx ("#".data) trimmedLine then
    ([repeatL ("  ".data) (stack.length - 1) ++ ("// ".data) ++ trimmedLine.drop 1],
     stack, cur)
  else
    let initialSpaces := leadingWS rawLine
    let popped := if initialSpaces < cur then pyPopLoop stack initialSpaces
                  else ([], stack)
    let stack2 := if stack1Top popped.2 < initialSpaces then initialSpaces :: popped.2
                  else popped.2
    (popped.1 ++ [repeatL ("  ".data) (stack2.length - 1) ++ pyLineConvert trimmedLine],
     stack2, initialSpaces)
where
  /-- `indentStack[indentStack.length - 1]` (the stack is never empty). -/
  stack1Top : List Nat → Nat
    | [] => 0
    | top :: _ => top

/-- The end-of-input flush of `convertPythonToJavaScript`
(github-api.ts, lines 509–513). -/
def pyFlush : List Nat → List Line
  | _ :: r :: rs => (repeatL ("  ".data) ((r :: rs).length - 1) ++ ['\x7d']) :: pyFlush (r :: rs)
  | _ => []

/-- The loop of `convertPythonToJavaScript` over all lines, followed by
the flush. -/
def pyToJsGo : List Line → List Nat → Nat → List Line
  | [], stack, _ => pyFlush stack
  | l :: ls, stack, cur =>
    let r := pyToJsStep stack cur l
    r.1 ++ pyToJsGo ls r.2.1 r.2.2

/-- `convertPythonToJavaScript` (github-api.ts, lines 381–516). -/
def convertPythonToJavaScript (s : String) : String :=
  String.mk (joinLinesL (pyToJsGo (splitLinesL s.data) [0] 0))

/-- The local-fallback dispatch of `convertCodeWithGitHub`
(github-api.ts, lines 73–88): the `convertedCode` value. -/
def convertedCodeFor (sourceLanguage targetLanguage sourceCode : String) : String :=
  if sourceLanguage = "javascript" && targetLanguage = "python" then
    convertJavaScriptToPython sourceCode
  else if sourceLanguage = "javascript" && targetLanguage = "swift" then
    convertJavaScriptToSwift sourceCode
  else if sourceLanguage = "python" && targetLanguage = "javascript" then
    convertPythonToJavaScript sourceCode
  else
    "// Converted from " ++ sourceLanguage ++ " to " ++ targetLanguage ++ "\n" ++ sourceCode

end GitHubApi

/-! ### The byte-identical converter copies inside `registerRoutes`
(`src/server/routes.ts`, lines 131–525).  A `diff` of the two files
shows the three function bodies are identical up to the two-space
nesting indent, so the per-line computations embed to the same Lean
terms; the loops are re-stated here as the route handler's own
definitions. -/

namespace Routes

/-- `convertJavaScriptToPython` as defined inside `registerRoutes`
(routes.ts, lines 271–388): one loop iteration's line computation. -/
def jsToPyLine (line : Line) (ind : Int) : Line × Int :=
  GitHubApi.jsToPyLine line ind

/-- One loop iteration of the routes.ts `convertJavaScriptToPython`. -/
def jsToPyStep (ind : Int) (rawLine : Line) : List Line × Int :=
  let line := trimL rawLine
  if line.isEmpty then ([[]], ind)
  else if pfx ("//".data) line then
    ([repeatL ("    ".data) ind.toNat ++ ("# ".data) ++ line.drop 2], ind)
  else
    let r := jsToPyLine line ind
    (if r.1.isEmpty then [] else [repeatL ("    ".data) ind.toNat ++ r.1], r.2)

/-- The loop of the routes.ts `convertJavaScriptToPython`. -/
def jsToPyGo : List Line → Int → List Line
  | [], _ => []
  | l :: ls, ind =>
    let r := jsToPyStep ind l
    r.1 ++ jsToPyGo ls r.2

/-- `convertJavaScriptToPython` (routes.ts, lines 271–388). -/
def convertJavaScriptToPython (s : String) : String :=
  String.mk (joinLinesL (jsToPyGo (splitLinesL s.data) 0))

/-- `convertJavaScriptToSwift` as defined inside `registerRoutes`
(routes.ts, lines 131–269): one loop iteration's line computation. -/
def jsToSwiftLine (line : Line) (ind : Int) : Line × Int :=
  GitHubApi.jsToSwiftLine line ind

/-- One loop iteration of the routes.ts `convertJavaScriptToSwift`. -/
def jsToSwiftStep (ind : Int) (rawLine : Line) : List Line × Int :=
  let line := trimL rawLine
  if line.isEmpty then ([[]], ind)
  else if pfx ("//".data) line then
    ([repeatL ("  ".data) ind.toNat ++ line], ind)
  else
    let r := jsToSwiftLine line ind
    ([repeatL ("  ".data) r.2.toNat ++ r.1], r.2)

/-- The loop of the routes.ts `convertJavaScriptToSwift`. -/
def jsToSwiftGo : List Line → Int → List Line
  | [], _ => []
  | l :: ls, ind =>
    let r := jsToSwiftStep ind l
    r.1 ++ jsToSwiftGo ls r.2

/-- `convertJavaScriptToSwift` (routes.ts, lines 131–269). -/
def convertJavaScriptToSwift (s : String) : String :=
  String.mk (joinLinesL (jsToSwiftGo (splitLinesL s.data) 0))

/-- One loop iteration of the routes.ts `convertPythonToJavaScript`
(routes.ts, lines 397–516). -/
def pyToJsStep (stack : List Nat) (cur : Nat) (rawLine : Line) :
    List Line × List Nat × Nat :=
  GitHubApi.pyToJsStep stack cur rawLine

/-- The loop of the routes.ts `convertPythonToJavaScript`, with its
end-of-input flush (routes.ts, lines 518–522). -/
def pyToJsGo : List Line → List Nat → Nat → List Line
  | [], stack, _ => GitHubApi.pyFlush stack
  | l :: ls, stack, cur =>
    let r := pyToJsStep stack cur l
    r.1 ++ pyToJsGo ls r.2.1 r.2.2

/-- `convertPythonToJavaScript` (routes.ts, lines 390–525). -/
def convertPythonToJavaScript (s : String) : String :=
  String.mk (joinLinesL (pyToJsGo (splitLinesL s.data) [0] 0))

/-- The dispatch of the route handler (routes.ts, lines 37–52): note
the js→swift pair is tested first there, unlike github-api.ts. -/
def convertedCodeFor (sourceLanguage targetLanguage sourceCode : String) : String :=
  if sourceLanguage = "javascript" && targetLanguage = "swift" then
    convertJavaScriptToSwift sourceCode
  else if sourceLanguage = "javascript" && targetLanguage = "python" then
    convertJavaScriptToPython sourceCode
  else if sourceLanguage = "python" && targetLanguage = "javascript" then
    convertPythonToJavaScript sourceCode
  else
    "// Converted from " ++ sourceLanguage ++ " to " ++ targetLanguage ++ "\n" ++ sourceCode

end Routes

/-! ### Instrumentation: state traces and counters over the same step
functions, used to state the indentation and flush properties. -/

/-- The sequence of `indentLevel` values of `convertJavaScriptToPython`
(the value before each line, and the final value). -/
def jsToPyIndentTrace : List Line → Int → List Int
  | [], i => [i]
  | l :: ls, i => i :: jsToPyIndentTrace ls (GitHubApi.jsToPyStep i l).2

/-- The sequence of `indentLevel` values of `convertJavaScriptToSwift`. -/
def jsToSwiftIndentTrace : List Line → Int → List Int
  | [], i => [i]
  | l :: ls, i => i :: jsToSwiftIndentTrace ls (GitHubApi.jsToSwiftStep i l).2

/-- The sequence of `indentStack` values of `convertPythonToJavaScript`
(the stack before each line, and the final stack). -/
def pyStackTrace : List Line → List Nat → Nat → List (List Nat)
  | [], st, _ => [st]
  | l :: ls, st, cur =>
    let r := GitHubApi.pyToJsStep st cur l
    st :: pyStackTrace ls r.2.1 r.2.2

/-- The number of `indentStack.push` operations performed by
`convertPythonToJavaScript` while processing the given lines from the
given state (mirrors `GitHubApi.pyToJsStep`'s state updates). -/
def pyPushCountGo : List Line → List Nat → Nat → Nat
  | [], _, _ => 0
  | l :: ls, stack, cur =>
    let t := trimL l
    if t.isEmpty then pyPushCountGo ls stack cur
    else if pfx ("#".data) t then pyPushCountGo ls stack cur
    else
      let isp := leadingWS l
      let stack1 := if isp < cur then (GitHubApi.pyPopLoop stack isp).2 else stack
      let doPush := GitHubApi.pyToJsStep.stack1Top stack1 < isp
      (if doPush then 1 else 0) +
        pyPushCountGo ls (if doPush then isp :: stack1 else stack1) isp

/-- Total number of indent-stack pushes of `convertPythonToJavaScript`
on a source text. -/
def pyPushCount (s : String) : Nat := pyPushCountGo (splitLinesL s.data) [0] 0

/-- The maximum indentation depth (`indentStack.length - 1`) reached by
`convertPythonToJavaScript` while processing a source text. -/
def pyMaxIndentDepth (s : String) : Nat :=
  ((pyStackTrace (splitLinesL s.data) [0] 0).map (fun st => st.length - 1)).foldr max 0

/-- The number of lines of a text whose trimmed content is exactly the
closing brace. -/
def closeLineCount (s : String) : Nat :=
  ((splitLinesL s.data).filter (fun l => trimL l = ['\x7d'])).length

/-- The number of occurrences of a character in a text. -/
def charCount (c : Char) (s : String) : Nat := s.data.count c

/-! ### Equality of the route-handler converter copies with the
github-api.ts originals -/

theorem routes_jsToPyStep_eq (i : Int) (l : Line) :
    Routes.jsToPyStep i l = GitHubApi.jsToPyStep i l := rfl

theorem routes_jsToPyGo_eq (ls : List Line) (i : Int) :
    Routes.jsToPyGo ls i = GitHubApi.jsToPyGo ls i := by
  induction ls generalizing i with
  | nil => rfl
  | cons l ls ih =>
    simp only [Routes.jsToPyGo, GitHubApi.jsToPyGo, routes_jsToPyStep_eq, ih]

theorem routes_jsToSwiftStep_eq (i : Int) (l : Line) :
    Routes.jsToSwiftStep i l = GitHubApi.jsToSwiftStep i l := rfl

theorem routes_jsToSwiftGo_eq (ls : List Line) (i : Int) :
    Routes.jsToSwiftGo ls i = GitHubApi.jsToSwiftGo ls i := by
  induction ls generalizing i with
  | nil => rfl
  | cons l ls ih =>
    simp only [Routes.jsToSwiftGo, GitHubApi.jsToSwiftGo, routes_jsToSwiftStep_eq, ih]

theorem routes_pyToJsGo_eq (ls : List Line) (st : List Nat) (cur : Nat) :
    Routes.pyToJsGo ls st cur = GitHubApi.pyToJsGo ls st cur := by
  induction ls generalizing st cur with
  | nil => rfl
  | cons l ls ih =>
    simp only [Routes.pyToJsGo, GitHubApi.pyToJsGo, Routes.pyToJsStep, ih]

/-- C10.  The three converter functions defined inside the route
handler of routes.ts are extensionally equal to the same-named
module-level functions of github-api.ts: on every input string each
copy returns exactly the same output string as its counterpart. -/
theorem claim10_routes_copies_extensionally_equal (s : String) :
    Routes.convertJavaScriptToSwift s = GitHubApi.convertJavaScriptToSwift s ∧
    Routes.convertJavaScriptToPython s = GitHubApi.convertJavaScriptToPython s ∧
    Routes.convertPythonToJavaScript s = GitHubApi.convertPythonToJavaScript s := by
  refine ⟨?_, ?_, ?_⟩
  · simp only [Routes.convertJavaScriptToSwift, GitHubApi.convertJavaScriptToSwift,
      routes_jsToSwiftGo_eq]
  · simp only [Routes.convertJavaScriptToPython, GitHubApi.convertJavaScriptToPython,
      routes_jsToPyGo_eq]
  · simp only [Routes.convertPythonToJavaScript, GitHubApi.convertPythonToJavaScript,
      routes_pyToJsGo_eq]

/-! ### Concrete-scenario claims -/

/-- C1.  Python→JavaScript on `def add(a, b):` + indented
`return a + b` yields exactly the three-line JavaScript function, the
final closing brace coming from the end-of-input flush. -/
theorem claim1_py_to_js_add_function :
    GitHubApi.convertPythonToJavaScript "def add(a, b):\n    return a + b" =
      "function add(a, b) \x7b\n  return a + b;\n\x7d" := by decide

/-- C5.  JavaScript→Python on the three-line `add` function yields
exactly `def add(a, b):` and the 4-space-indented body; the two brace
lines produce no output and the trailing semicolon is stripped. -/
theorem claim5_js_to_py_add_function :
    GitHubApi.convertJavaScriptToPython
        "function add(a, b) \x7b\n  return a + b;\n\x7d" =
      "def add(a, b):\n    return a + b" := by decide

/-- C6 (counterexample).  On `if (x === 5) { … }` the JS→Swift
converter does *not* return the claimed `if x == 5 {` first line: the
branch increments `indentLevel` before the push at github-api.ts line
375, so the header line is emitted with a two-space indent. -/
theorem claim6_counterexample :
    GitHubApi.convertJavaScriptToSwift
        "if (x === 5) \x7b\n  console.log(\"hi\");\n\x7d" ≠
      "if x == 5 \x7b\n  print(\"hi\")\n\x7d" := by decide

/-- C6 (amended).  The actual JS→Swift output on the scenario input:
`===` is normalized to `==`, the parentheses are dropped,
`console.log` becomes `print` without the semicolon, and the brace
block is kept — but the `if` header itself carries one two-space
indent unit, because the indent level is incremented before the line
is emitted. -/
theorem claim6_swift_if_scenario_amended :
    GitHubApi.convertJavaScriptToSwift
        "if (x === 5) \x7b\n  console.log(\"hi\");\n\x7d" =
      "  if x == 5 \x7b\n  print(\"hi\")\n\x7d" := by decide

/-- C2 (counterexample).  For a `<=` for-loop header the emitted Swift
line is *not* the claimed `for i in 0...10 {` form: the regex
alternation `(<|<=|>|>=)` is ordered, `<` matches first, and the `=`
is absorbed into the `[^;]+` end capture, producing `0..<= 10`. -/
theorem claim2_counterexample :
    GitHubApi.convertJavaScriptToSwift "for (let i = 0; i <= 10; i++) \x7b" =
        "  for i in 0..<= 10 \x7b" ∧
    ¬ (GitHubApi.convertJavaScriptToSwift "for (let i = 0; i <= 10; i++) \x7b" =
          "for i in 0...10 \x7b" ∨
       GitHubApi.convertJavaScriptToSwift "for (let i = 0; i <= 10; i++) \x7b" =
          "  for i in 0...10 \x7b") := by decide

/-- C3 (counterexample).  A source that enters depth 1, leaves it and
enters it again emits two closing-brace lines although the maximum
indentation depth reached is 1. -/
theorem claim3_counterexample :
    closeLineCount
        (GitHubApi.convertPythonToJavaScript "if a:\n    x = 1\nif b:\n    y = 2") ≠
      pyMaxIndentDepth "if a:\n    x = 1\nif b:\n    y = 2" := by decide

/-- C4 (counterexample).  The single-line source `if (x) { }` is
brace-balanced, but the JS→Swift output `  if x {` contains one `{`
and no `}`: the if-branch rebuilds the line from the condition capture
and a single brace, dropping the rest of the original text. -/
theorem claim4_counterexample :
    charCount '\x7b' "if (x) \x7b \x7d" = charCount '\x7d' "if (x) \x7b \x7d" ∧
    charCount '\x7b' (GitHubApi.convertJavaScriptToSwift "if (x) \x7b \x7d") ≠
      charCount '\x7d' (GitHubApi.convertJavaScriptToSwift "if (x) \x7b \x7d") := by
  decide

/-- C8 (counterexample).  The line `for (;;) function f(a)` begins
with `for (` and its header does not match the three-clause grammar,
but it is *not* emitted as a `# MANUAL CONVERSION NEEDED:` marker: the
function-declaration branch is tested first with an unanchored regex
and captures the line. -/
theorem claim8_counterexample :
    GitHubApi.convertJavaScriptToPython "for (;;) function f(a)" ≠
      "# MANUAL CONVERSION NEEDED: for (;;) function f(a)" := by decide

/-! ### C7: the unsupported-pair fallback -/

/-- C7.  For every ordered language pair other than the three supported
ones, both dispatch sites return exactly the comment header
`// Converted from <src> to <tgt>`, a newline, and the unmodified
source; hence the output is nonempty and contains the source as a
(suffix) substring, and the computation is total. -/
theorem claim7_unsupported_pair_fallback (src tgt code : String)
    (h1 : ¬(src = "javascript" ∧ tgt = "python"))
    (h2 : ¬(src = "javascript" ∧ tgt = "swift"))
    (h3 : ¬(src = "python" ∧ tgt = "javascript")) :
    GitHubApi.convertedCodeFor src tgt code =
      "// Converted from " ++ src ++ " to " ++ tgt ++ "\n" ++ code ∧
    Routes.convertedCodeFor src tgt code =
      "// Converted from " ++ src ++ " to " ++ tgt ++ "\n" ++ code ∧
    GitHubApi.convertedCodeFor src tgt code ≠ "" ∧
    ∃ p, GitHubApi.convertedCodeFor src tgt code = p ++ code := by
  have hG : GitHubApi.convertedCodeFor src tgt code =
      "// Converted from " ++ src ++ " to " ++ tgt ++ "\n" ++ code := by
    unfold GitHubApi.convertedCodeFor
    rw [if_neg (by simp only [Bool.and_eq_true, decide_eq_true_eq]; exact h1),
        if_neg (by simp only [Bool.and_eq_true, decide_eq_true_eq]; exact h2),
        if_neg (by simp only [Bool.and_eq_true, decide_eq_true_eq]; exact h3)]
  have hR : Routes.convertedCodeFor src tgt code =
      "// Converted from " ++ src ++ " to " ++ tgt ++ "\n" ++ code := by
    unfold Routes.convertedCodeFor
    rw [if_neg (by simp only [Bool.and_eq_true, decide_eq_true_eq]; exact h2),
        if_neg (by simp only [Bool.and_eq_true, decide_eq_true_eq]; exact h1),
        if_neg (by simp only [Bool.and_eq_true, decide_eq_true_eq]; exact h3)]
  refine ⟨hG, hR, ?_, ?_⟩
  · rw [hG]
    intro h
    have hl := congrArg String.length h
    simp only [String.length_append] at hl
    have h18 : ("// Converted from " : String).length = 18 := rfl
    simp [h18] at hl
  · exact ⟨"// Converted from " ++ src ++ " to " ++ tgt ++ "\n", by rw [hG]⟩

/-- Witness for C7 at the concrete pair java→rust. -/
theorem claim7_witness :
    GitHubApi.convertedCodeFor "java" "rust" "x = 1" =
      "// Converted from " ++ "java" ++ " to " ++ "rust" ++ "\n" ++ "x = 1" ∧
    Routes.convertedCodeFor "java" "rust" "x = 1" =
      "// Converted from " ++ "java" ++ " to " ++ "rust" ++ "\n" ++ "x = 1" ∧
    GitHubApi.convertedCodeFor "java" "rust" "x = 1" ≠ "" ∧
    ∃ p, GitHubApi.convertedCodeFor "java" "rust" "x = 1" = p ++ "x = 1" :=
  claim7_unsupported_pair_fallback "java" "rust" "x = 1"
    (by decide) (by decide) (by decide)

/-! ### C9: the tracked indentation depth is never negative -/

theorem jsToPyLine_indent_nonneg (line : Line) (i : Int) (h : 0 ≤ i) :
    0 ≤ (GitHubApi.jsToPyLine line i).2 := by
  unfold GitHubApi.jsToPyLine
  repeat' split
  all_goals dsimp only
  all_goals omega

theorem jsToPyStep_indent_nonneg (i : Int) (l : Line) (h : 0 ≤ i) :
    0 ≤ (GitHubApi.jsToPyStep i l).2 := by
  unfold GitHubApi.jsToPyStep
  dsimp only
  repeat' split
  all_goals dsimp only
  all_goals first
  | omega
  | exact jsToPyLine_indent_nonneg _ _ h

theorem jsToSwiftLine_indent_nonneg (line : Line) (i : Int) (h : 0 ≤ i) :
    0 ≤ (GitHubApi.jsToSwiftLine line i).2 := by
  unfold GitHubApi.jsToSwiftLine
  repeat' split
  all_goals dsimp only
  all_goals omega

theorem jsToSwiftStep_indent_nonneg (i : Int) (l : Line) (h : 0 ≤ i) :
    0 ≤ (GitHubApi.jsToSwiftStep i l).2 := by
  unfold GitHubApi.jsToSwiftStep
  dsimp only
  repeat' split
  all_goals dsimp only
  all_goals first
  | omega
  | exact jsToSwiftLine_indent_nonneg _ _ h

theorem jsToPyIndentTrace_nonneg :
    ∀ (ls : List Line) (i : Int), 0 ≤ i →
      ∀ j ∈ jsToPyIndentTrace ls i, 0 ≤ j := by
  intro ls
  induction ls with
  | nil => intro i h j hj; simp [jsToPyIndentTrace] at hj; omega
  | cons l ls ih =>
    intro i h j hj
    simp only [jsToPyIndentTrace, List.mem_cons] at hj
    rcases hj with rfl | hj
    · exact h
    · exact ih _ (jsToPyStep_indent_nonneg i l h) j hj

theorem jsToSwiftIndentTrace_nonneg :
    ∀ (ls : List Line) (i : Int), 0 ≤ i →
      ∀ j ∈ jsToSwiftIndentTrace ls i, 0 ≤ j := by
  intro ls
  induction ls with
  | nil => intro i h j hj; simp [jsToSwiftIndentTrace] at hj; omega
  | cons l ls ih =>
    intro i h j hj
    simp only [jsToSwiftIndentTrace, List.mem_cons] at hj
    rcases hj with rfl | hj
    · exact h
    · exact ih _ (jsToSwiftStep_indent_nonneg i l h) j hj

theorem pyPopLoop_stack_last :
    ∀ (st : List Nat) (w : Nat), st ≠ [] →
      (GitHubApi.pyPopLoop st w).2 ≠ [] ∧
        (GitHubApi.pyPopLoop st w).2.getLast? = st.getLast?
  | [], _, h => absurd rfl h
  | [a], w, _ => by simp [GitHubApi.pyPopLoop]
  | a :: b :: rs, w, _ => by
    by_cases hw : w < a
    · have ih := pyPopLoop_stack_last (b :: rs) w (by simp)
      simp only [GitHubApi.pyPopLoop, if_pos hw]
      exact ⟨ih.1, by rw [ih.2, List.getLast?_cons_cons]⟩
    · simp [GitHubApi.pyPopLoop, hw]

theorem pyToJsStep_stack_base (st : List Nat) (cur : Nat) (l : Line)
    (h1 : st ≠ []) (h2 : st.getLast? = some 0) :
    (GitHubApi.pyToJsStep st cur l).2.1 ≠ [] ∧
      (GitHubApi.pyToJsStep st cur l).2.1.getLast? = some 0 := by
  unfold GitHubApi.pyToJsStep
  dsimp only
  split
  · exact ⟨h1, h2⟩
  split
  · exact ⟨h1, h2⟩
  have hS : ∀ (S : List Nat), S ≠ [] → S.getLast? = some 0 →
      (if GitHubApi.pyToJsStep.stack1Top S < leadingWS l then leadingWS l :: S else S) ≠ [] ∧
        (if GitHubApi.pyToJsStep.stack1Top S < leadingWS l then
            leadingWS l :: S else S).getLast? = some 0 := by
    intro S hne hlast
    split
    · rcases S with _ | ⟨y, ys⟩
      · exact absurd rfl hne
      · exact ⟨by simp, by rw [List.getLast?_cons_cons]; exact hlast⟩
    · exact ⟨hne, hlast⟩
  have hpop :
      (if leadingWS l < cur then GitHubApi.pyPopLoop st (leadingWS l) else ([], st)).2 ≠ [] ∧
        (if leadingWS l < cur then GitHubApi.pyPopLoop st (leadingWS l)
            else ([], st)).2.getLast? = some 0 := by
    split
    · have hp := pyPopLoop_stack_last st (leadingWS l) h1
      exact ⟨hp.1, hp.2.trans h2⟩
    · exact ⟨h1, h2⟩
  exact hS _ hpop.1 hpop.2

theorem pyStackTrace_base :
    ∀ (ls : List Line) (st : List Nat) (cur : Nat),
      st ≠ [] → st.getLast? = some 0 →
      ∀ st' ∈ pyStackTrace ls st cur, st' ≠ [] ∧ st'.getLast? = some 0 := by
  intro ls
  induction ls with
  | nil => intro st cur h1 h2 st' hst'; simp [pyStackTrace] at hst'; subst hst'; exact ⟨h1, h2⟩
  | cons l ls ih =>
    intro st cur h1 h2 st' hst'
    simp only [pyStackTrace, List.mem_cons] at hst'
    rcases hst' with rfl | hst'
    · exact ⟨h1, h2⟩
    · have hs := pyToJsStep_stack_base st cur l h1 h2
      exact ih _ _ hs.1 hs.2 st' hst'

/-- C9.  In every conversion direction the tracked indentation state
never drops below its floor at any point during processing: for the
brace-mode converters (JS→Python, JS→Swift) every `indentLevel` value
in the processing trace is ≥ 0 (block closes clamp at 0 via
`Math.max`), and for the whitespace-mode converter (Python→JS) every
`indentStack` value in the trace is nonempty and still carries the
base entry 0 at its bottom. -/
theorem claim9_indent_never_negative :
    (∀ (src : String) (j : Int),
        j ∈ jsToPyIndentTrace (splitLinesL src.data) 0 → 0 ≤ j) ∧
    (∀ (src : String) (j : Int),
        j ∈ jsToSwiftIndentTrace (splitLinesL src.data) 0 → 0 ≤ j) ∧
    (∀ (src : String) (st : List Nat),
        st ∈ pyStackTrace (splitLinesL src.data) [0] 0 →
          st ≠ [] ∧ st.getLast? = some 0) :=
  ⟨fun src j hj => jsToPyIndentTrace_nonneg _ 0 le_rfl j hj,
   fun src j hj => jsToSwiftIndentTrace_nonneg _ 0 le_rfl j hj,
   fun src st hst => pyStackTrace_base _ [0] 0 (by simp) rfl st hst⟩

/-- Witness for C9 at the one-line source `"x"` (whose traces are
`[0, 0]` and `[[0], [0]]`). -/
theorem claim9_witness :
    (0 ≤ (0 : Int)) ∧ (([0] : List Nat) ≠ [] ∧ ([0] : List Nat).getLast? = some 0) :=
  ⟨claim9_indent_never_negative.1 "x" 0 (by decide),
   claim9_indent_never_negative.2.2 "x" [0] (by decide)⟩

/-! ### Structural lemmas about the matchers -/

theorem stripPfx_eq_append {p l r : Line} (h : stripPfx p l = some r) : l = p ++ r := by
  induction p generalizing l with
  | nil => simp [stripPfx] at h; simp [h]
  | cons a ps ih =>
    cases l with
    | nil => simp [stripPfx] at h
    | cons c cs =>
      by_cases hac : a = c
      · subst hac
        simp [stripPfx] at h
        simp [ih h]
      · simp [stripPfx, hac] at h

theorem dropWhile_head_false {p : Char → Bool} {l cs : Line} {c : Char}
    (h : l.dropWhile p = c :: cs) : p c = false := by
  induction l with
  | nil => simp at h
  | cons a as ih =>
    rw [List.dropWhile_cons] at h
    split at h
    · exact ih h
    · next hpc => cases h; simpa using hpc

/-- A trimmed line has no leading whitespace. -/
theorem trimL_dropWhile (l : Line) : (trimL l).dropWhile isSpc = trimL l := by
  unfold trimL
  obtain ⟨t, ht⟩ := List.dropWhile_suffix (l := (l.dropWhile isSpc).reverse) (p := isSpc)
  set d := (l.dropWhile isSpc).reverse.dropWhile isSpc with hd
  have hx : l.dropWhile isSpc = d.reverse ++ t.reverse := by
    have := congrArg List.reverse ht
    simpa using this.symm
  cases hrev : d.reverse with
  | nil => simp [hrev]
  | cons c cs =>
    have hcons : l.dropWhile isSpc = c :: (cs ++ t.reverse) := by
      rw [hx, hrev]; simp
    have hnp : isSpc c = false := by
      have h2 := dropWhile_head_false (p := isSpc) (l := l) hcons
      exact h2
    simp [List.dropWhile_cons, hnp]

/-- A line passing the `/^\s*for\s*\(/` guard and having no leading
whitespace starts with the literal `for`. -/
theorem forGuardJs_shape {t : Line} (hg : forGuardJs t = true)
    (hds : t.dropWhile isSpc = t) : ∃ r, t = 'f' :: 'o' :: 'r' :: r := by
  unfold forGuardJs at hg
  rw [hds] at hg
  rcases hsp : stripPfx ("for".data) t with _ | r
  · rw [hsp] at hg; simp at hg
  · exact ⟨r, by simpa using stripPfx_eq_append hsp⟩

/-! ### The ordered alternation `(<|<=|>|>=)` can only capture `<` or `>` -/

theorem afterOp_shift {v r : Line} (h : afterOp v r ≠ none) : afterOp v ('=' :: r) ≠ none := by
  unfold afterOp semicolonField at h ⊢
  rcases hsp : splitAtFirst ';' r with _ | ⟨pre, post⟩
  · rw [hsp] at h; simp at h
  · rw [hsp] at h
    have hsp2 : splitAtFirst ';' ('=' :: r) = some ('=' :: pre, post) := by
      simp [splitAtFirst, hsp]
    rw [hsp2]
    dsimp only at h ⊢
    by_cases hpre : pre.isEmpty = true
    · rw [if_pos hpre] at h
      exact absurd rfl h
    · rw [if_neg hpre] at h
      dsimp only at h
      by_cases hft : forTail v post = true
      · rw [if_neg (show ¬(List.isEmpty ('=' :: pre) = true) by simp)]
        dsimp only
        rw [if_pos hft]
        simp
      · rw [if_neg hft] at h
        exact absurd rfl h

theorem opEnd_lt_or_gt {v s o e : Line} (h : opEnd v s = some (o, e)) :
    o = ['<'] ∨ o = ['>'] := by
  rcases s with _ | ⟨c, rest⟩
  · simp [opEnd] at h
  · by_cases hc1 : c = '<'
    · subst hc1
      rcases hao : afterOp v rest with _ | e'
      · rcases rest with _ | ⟨c2, r2⟩
        · simp [opEnd, hao] at h
        · by_cases hc2 : c2 = '='
          · subst hc2
            rcases hao2 : afterOp v r2 with _ | e2
            · simp [opEnd, hao, hao2] at h
            · exact absurd hao (afterOp_shift (by rw [hao2]; simp))
          · simp [opEnd, hao, hc2] at h
      · simp only [opEnd, hao] at h
        obtain ⟨h1, h2⟩ := Prod.mk.injEq .. ▸ Option.some.inj h
        exact Or.inl h1.symm
    · by_cases hc2 : c = '>'
      · subst hc2
        rcases hao : afterOp v rest with _ | e'
        · rcases rest with _ | ⟨c2, r2⟩
          · simp [opEnd, hao] at h
          · by_cases hc3 : c2 = '='
            · subst hc3
              rcases hao2 : afterOp v r2 with _ | e2
              · simp [opEnd, hao, hao2] at h
              · exact absurd hao (afterOp_shift (by rw [hao2]; simp))
            · simp [opEnd, hao, hc3] at h
        · simp only [opEnd, hao] at h
          obtain ⟨h1, h2⟩ := Prod.mk.injEq .. ▸ Option.some.inj h
          exact Or.inr h1.symm
      · simp [opEnd, hc1, hc2] at h

theorem forCore_op {s : Line} {cp : ForCaps} (h : forCore s = some cp) :
    cp.op = ['<'] ∨ cp.op = ['>'] := by
  unfold forCore at h
  dsimp only at h
  repeat' split at h
  all_goals first
  | (rename_i heq
     cases Option.some.inj h
     exact opEnd_lt_or_gt heq)
  | simp at h

theorem orElseO_cases {a b : Option ForCaps} {cp : ForCaps} (h : orElseO a b = some cp) :
    a = some cp ∨ (a = none ∧ b = some cp) := by
  rcases ha : a with _ | c
  · rw [ha] at h
    exact Or.inr ⟨rfl, h⟩
  · rw [ha] at h
    exact Or.inl (by rw [Option.some.inj h])

theorem tryKwAt_op {kw r4 : Line} {cp : ForCaps} (h : tryKwAt kw r4 = some cp) :
    cp.op = ['<'] ∨ cp.op = ['>'] := by
  unfold tryKwAt at h
  rcases hsp : stripPfx kw r4 with _ | r5
  · rw [hsp] at h; simp at h
  · rw [hsp] at h; exact forCore_op h

theorem forHeaderAt_op {l : Line} {cp : ForCaps} (h : forHeaderAt l = some cp) :
    cp.op = ['<'] ∨ cp.op = ['>'] := by
  unfold forHeaderAt at h
  rcases h1 : stripPfx ("for".data) l with _ | r1
  · rw [h1] at h; simp at h
  rw [h1] at h
  try dsimp only at h
  rcases h2 : List.dropWhile isSpc r1 with _ | ⟨c, r3⟩ <;> rw [h2] at h
  · simp at h
  by_cases hc : c = '('
  · subst hc
    rcases orElseO_cases h with h3 | ⟨_, h3⟩
    · exact tryKwAt_op h3
    rcases orElseO_cases h3 with h4 | ⟨_, h4⟩
    · exact tryKwAt_op h4
    rcases orElseO_cases h4 with h5 | ⟨_, h5⟩
    · exact tryKwAt_op h5
    exact forCore_op h5
  · simp [hc] at h

theorem forHeaderMatch_op {l : Line} {cp : ForCaps} (h : forHeaderMatch l = some cp) :
    cp.op = ['<'] ∨ cp.op = ['>'] := by
  induction l with
  | nil => simp [forHeaderMatch] at h
  | cons c cs ih =>
    rw [forHeaderMatch] at h
    rcases hat : forHeaderAt (c :: cs) with _ | cp'
    · rw [hat] at h
      exact ih h
    · rw [hat] at h
      cases h
      exact forHeaderAt_op hat

/-- C2 (amended).  For a line reaching the JS→Swift for-loop branch
whose header matches the three-clause grammar, the captured comparison
operator is always `<` or `>` (the ordered alternation `(<|<=|>|>=)`
never selects `<=` or `>=`: when the source is written `v <= end` the
`<` alternative matches and the `=` is absorbed into the `[^;]+` end
capture); when `<` is captured the emitted line is the
`for v in start..<end {` form, and when `>` it is the best-effort
`..<` form preceded by an inline comment noting the original
condition; in every matched case the indent level increases by 1. -/
theorem claim2_for_operator_amended (l : Line) (ind : Int) (cp : ForCaps)
    (hguard : forGuardJs (trimL l) = true)
    (hfun : funcDeclSearch (trimL l) = none)
    (hvar : varDeclMatch (trimL l) = none)
    (hif : ifMatchJs (trimL l) = none)
    (h : forHeaderMatch (trimL l) = some cp) :
    (cp.op = ['<'] ∨ cp.op = ['>']) ∧
    (GitHubApi.jsToSwiftStep ind l).2 = ind + 1 ∧
    (cp.op = ['<'] →
      GitHubApi.jsToSwiftStep ind l =
        ([repeatL ("  ".data) (ind + 1).toNat ++
            (("for ".data) ++ cp.v ++ (" in ".data) ++ cp.start ++ ("..<".data) ++
              cp.stop ++ (" \x7b".data))], ind + 1)) ∧
    (cp.op = ['>'] →
      GitHubApi.jsToSwiftStep ind l =
        ([repeatL ("  ".data) (ind + 1).toNat ++
            (("// Note: This for loop might need manual adjustment\nfor ".data) ++
              cp.v ++ (" in ".data) ++ cp.start ++ ("..<".data) ++ cp.stop ++
              (" \x7b // Original condition was ".data) ++ cp.v ++ ' ' :: cp.op ++
              ' ' :: cp.stop)], ind + 1)) := by
  obtain ⟨r, ht⟩ := forGuardJs_shape hguard (trimL_dropWhile l)
  rw [ht] at hfun hvar hif hguard h
  have hop := forHeaderMatch_op h
  unfold GitHubApi.jsToSwiftStep GitHubApi.jsToSwiftLine
  rw [ht]
  have e2 : pfx ("//".data) ('f' :: 'o' :: 'r' :: r) = false := rfl
  simp only [List.isEmpty_cons, Bool.false_eq_true, if_false, e2, hfun, hvar, hif,
    hguard, h, if_true]
  have e3 : ¬('f' :: 'o' :: 'r' :: r = ['\x7b']) := by simp
  have e4 : ¬('f' :: 'o' :: 'r' :: r = ['\x7d']) := by simp
  rw [if_neg e3, if_neg e4]
  refine ⟨hop, ?_, ?_, ?_⟩
  · rcases hop with hlt | hgt
    · simp [hlt]
    · have h1 : ¬(cp.op = ['<']) := by rw [hgt]; simp
      have h2 : ¬(cp.op = ['<', '=']) := by rw [hgt]; simp
      simp [h1, h2]
  · intro hlt
    simp [hlt]
  · intro hgt
    have h1 : ¬(cp.op = ['<']) := by rw [hgt]; simp
    have h2 : ¬(cp.op = ['<', '=']) := by rw [hgt]; simp
    simp [h1, h2]

/-- Witness for C2 on `for (let i = 0; i < 10; i++) {` at indent 0. -/
theorem claim2_witness :
    GitHubApi.jsToSwiftStep 0 ("for (let i = 0; i < 10; i++) \x7b".data) =
      ([repeatL ("  ".data) ((0 : Int) + 1).toNat ++
          (("for ".data) ++ ['i'] ++ (" in ".data) ++ ['0'] ++ ("..<".data) ++
            ['1', '0'] ++ (" \x7b".data))], (0 : Int) + 1) :=
  (claim2_for_operator_amended ("for (let i = 0; i < 10; i++) \x7b".data) 0
      ⟨['i'], ['0'], ['<'], ['1', '0']⟩
      (by decide) (by decide) (by decide) (by decide) (by decide)).2.2.1 rfl

/-- C8 (amended).  A line that reaches the JS→Python for-loop branch
(it passes the `for (` guard and, in particular, contains no function
declaration, which would be captured by the earlier unanchored
function branch) and whose header does not match the three-clause
grammar is emitted as the single line `# MANUAL CONVERSION NEEDED: `
followed by the trimmed original line, at the current indent, with the
indent level left unchanged; the computation is total, so no error is
raised. -/
theorem claim8_manual_marker_amended (l : Line) (ind : Int)
    (hfor : forGuardJs (trimL l) = true)
    (hfun : funcDeclSearch (trimL l) = none)
    (hhdr : forHeaderMatch (trimL l) = none) :
    GitHubApi.jsToPyStep ind l =
      ([repeatL ("    ".data) ind.toNat ++
          ("# MANUAL CONVERSION NEEDED: ".data) ++ trimL l], ind) := by
  obtain ⟨r, ht⟩ := forGuardJs_shape hfor (trimL_dropWhile l)
  rw [ht] at hfun hhdr hfor
  unfold GitHubApi.jsToPyStep GitHubApi.jsToPyLine
  rw [ht]
  have e2 : pfx ("//".data) ('f' :: 'o' :: 'r' :: r) = false := rfl
  have e5 : varDeclMatch ('f' :: 'o' :: 'r' :: r) = none := rfl
  have e6 : ifMatchJs ('f' :: 'o' :: 'r' :: r) = none := rfl
  simp only [e2, e5, e6, hfun, hhdr, hfor, List.isEmpty_cons, Bool.false_eq_true,
    if_false, if_true]
  simp

/-- Witness for C8 on `for (;;)` at indent 0. -/
theorem claim8_witness :
    GitHubApi.jsToPyStep 0 ("for (;;)".data) =
      ([repeatL ("    ".data) (0 : Int).toNat ++
          ("# MANUAL CONVERSION NEEDED: ".data) ++ trimL ("for (;;)".data)], 0) :=
  claim8_manual_marker_amended ("for (;;)".data) 0 (by decide) (by decide) (by decide)

/-! ### Decomposition and membership lemmas for the matcher helpers -/

theorem mem_dropWhile {c : Char} {p : Char → Bool} {l : Line} (h : c ∈ l.dropWhile p) :
    c ∈ l := by
  induction l with
  | nil => simp at h
  | cons a as ih =>
    rw [List.dropWhile_cons] at h
    split at h
    · exact List.mem_cons_of_mem a (ih h)
    · exact h

theorem mem_takeWhile {c : Char} {p : Char → Bool} {l : Line} (h : c ∈ l.takeWhile p) :
    c ∈ l := by
  induction l with
  | nil => simp at h
  | cons a as ih =>
    rw [List.takeWhile_cons] at h
    split at h
    · rcases List.mem_cons.1 h with rfl | h2
      · exact List.mem_cons_self c as
      · exact List.mem_cons_of_mem a (ih h2)
    · simp at h

theorem mem_dropLast {c : Char} {l : Line} (h : c ∈ l.dropLast) : c ∈ l :=
  List.dropLast_subset l h

theorem mem_trimL {c : Char} {l : Line} (h : c ∈ trimL l) : c ∈ l := by
  unfold trimL at h
  rw [List.mem_reverse] at h
  have h2 := mem_dropWhile h
  rw [List.mem_reverse] at h2
  exact mem_dropWhile h2

theorem mem_lastCh : ∀ {l : Line}, l ≠ [] → lastCh l ∈ l
  | [a], _ => by simp [lastCh]
  | a :: b :: cs, _ => by
    have ih := mem_lastCh (l := b :: cs) (by simp)
    rw [lastCh] at ih ⊢
    rw [List.getLast?_cons_cons]
    exact List.mem_cons_of_mem a ih

theorem pfx_eq_append {p l : Line} (h : pfx p l = true) : l = p ++ l.drop p.length := by
  induction p generalizing l with
  | nil => simp
  | cons a ps ih =>
    cases l with
    | nil => simp [pfx] at h
    | cons c cs =>
      simp only [pfx, Bool.and_eq_true, decide_eq_true_eq] at h
      obtain ⟨rfl, h2⟩ := h
      simpa using ih h2

theorem splitAtFirst_eq {a : Char} {l pre post : Line}
    (h : splitAtFirst a l = some (pre, post)) : l = pre ++ a :: post := by
  induction l generalizing pre with
  | nil => simp [splitAtFirst] at h
  | cons c cs ih =>
    rw [splitAtFirst] at h
    split at h
    · next hc => cases h; simp [hc]
    · next hc =>
      rcases hs : splitAtFirst a cs with _ | ⟨pre', post'⟩ <;> rw [hs] at h
      · simp at h
      · cases h
        simp [ih hs]

theorem splitAtLast_eq {a : Char} {l pre post : Line}
    (h : splitAtLast a l = some (pre, post)) : l = pre ++ a :: post := by
  unfold splitAtLast at h
  rcases hs : splitAtFirst a l.reverse with _ | ⟨p, q⟩ <;> rw [hs] at h
  · simp at h
  · cases h
    have h2 := congrArg List.reverse (splitAtFirst_eq hs)
    simpa using h2

theorem splitAtSub_eq {p l pre post : Line}
    (h : splitAtSub p l = some (pre, post)) : l = pre ++ p ++ post := by
  induction l generalizing pre with
  | nil =>
    rw [splitAtSub] at h
    split at h
    · next hp =>
      cases h
      cases p
      · simp
      · simp [pfx] at hp
    · simp at h
  | cons c cs ih =>
    rw [splitAtSub] at h
    split at h
    · next hp =>
      cases h
      simpa using pfx_eq_append hp
    · rcases hs : splitAtSub p cs with _ | ⟨pre', post'⟩ <;> rw [hs] at h
      · simp at h
      · cases h
        simp [ih hs]

theorem splitOnComma_ne_nil : ∀ (p : Line), splitOnComma p ≠ []
  | [] => by simp [splitOnComma]
  | a :: as => by
    rcases hs : splitOnComma as with _ | ⟨r, rs⟩
    · exact absurd hs (splitOnComma_ne_nil as)
    · have heq : splitOnComma (a :: as) =
          if a = ',' then [] :: r :: rs else (a :: r) :: rs := by
        rw [splitOnComma, hs]
      rw [heq]
      split <;> simp

theorem mem_splitOnComma {c : Char} {part p : Line}
    (hpart : part ∈ splitOnComma p) (h : c ∈ part) : c ∈ p := by
  induction p generalizing part with
  | nil =>
    simp [splitOnComma] at hpart
    subst hpart
    simp at h
  | cons a as ih =>
    rcases hs : splitOnComma as with _ | ⟨r, rs⟩
    · exact absurd hs (splitOnComma_ne_nil as)
    have heq : splitOnComma (a :: as) =
        if a = ',' then [] :: r :: rs else (a :: r) :: rs := by
      rw [splitOnComma, hs]
    rw [heq] at hpart
    by_cases ha : a = ','
    · rw [if_pos ha] at hpart
      rcases List.mem_cons.1 hpart with rfl | h2
      · simp at h
      · exact List.mem_cons_of_mem a (ih (by rw [hs]; exact h2) h)
    · rw [if_neg ha] at hpart
      rcases List.mem_cons.1 hpart with rfl | h2
      · rcases List.mem_cons.1 h with rfl | h3
        · simp
        · exact List.mem_cons_of_mem a
            (ih (by rw [hs]; exact List.mem_cons_self r rs) h3)
      · exact List.mem_cons_of_mem a
          (ih (by rw [hs]; exact List.mem_cons_of_mem r h2) h)

theorem mem_replaceEqOps : ∀ {s : Line} {c : Char}, c ∈ replaceEqOps s → c ∈ s ∨ c = '='
  | [], c, h => by simp [replaceEqOps] at h
  | [a], c, h => by
    simp [replaceEqOps] at h
    simp [h]
  | [a, b], c, h => by
    rw [replaceEqOps] at h
    split at h
    · next hab =>
      simp only [Bool.and_eq_true, decide_eq_true_eq] at hab
      rcases List.mem_cons.1 h with rfl | h2
      · exact Or.inr rfl
      · simp at h2
        exact Or.inr h2
    · rcases List.mem_cons.1 h with rfl | h2
      · exact Or.inl (by simp)
      · rcases mem_replaceEqOps h2 with h3 | h3
        · simp at h3
          exact Or.inl (by simp [h3])
        · exact Or.inr h3
  | a :: b :: d :: rest, c, h => by
    rw [replaceEqOps] at h
    split at h
    · next hab =>
      simp only [Bool.and_eq_true, decide_eq_true_eq] at hab
      split at h
      · rcases List.mem_cons.1 h with rfl | h2
        · exact Or.inr rfl
        rcases List.mem_cons.1 h2 with rfl | h3
        · exact Or.inr rfl
        rcases mem_replaceEqOps h3 with h4 | h4
        · exact Or.inl (by simp [h4])
        · exact Or.inr h4
      · rcases List.mem_cons.1 h with rfl | h2
        · exact Or.inr rfl
        rcases List.mem_cons.1 h2 with rfl | h3
        · exact Or.inr rfl
        rcases mem_replaceEqOps h3 with h4 | h4
        · exact Or.inl (by simp [h4])
        · exact Or.inr h4
    · rcases List.mem_cons.1 h with rfl | h2
      · exact Or.inl (by simp)
      rcases mem_replaceEqOps h2 with h4 | h4
      · exact Or.inl (by simp [h4])
      · exact Or.inr h4

theorem mem_replaceNeqOps : ∀ {s : Line} {c : Char},
    c ∈ replaceNeqOps s → c ∈ s ∨ c = '!' ∨ c = '='
  | [], c, h => by simp [replaceNeqOps] at h
  | [a], c, h => by
    simp [replaceNeqOps] at h
    simp [h]
  | [a, b], c, h => by
    rw [replaceNeqOps] at h
    split at h
    · rcases List.mem_cons.1 h with rfl | h2
      · exact Or.inr (Or.inl rfl)
      · simp at h2
        exact Or.inr (Or.inr h2)
    · rcases List.mem_cons.1 h with rfl | h2
      · exact Or.inl (by simp)
      · rcases mem_replaceNeqOps h2 with h3 | h3
        · simp at h3
          exact Or.inl (by simp [h3])
        · exact Or.inr h3
  | a :: b :: d :: rest, c, h => by
    rw [replaceNeqOps] at h
    split at h
    · split at h
      · rcases List.mem_cons.1 h with rfl | h2
        · exact Or.inr (Or.inl rfl)
        rcases List.mem_cons.1 h2 with rfl | h3
        · exact Or.inr (Or.inr rfl)
        rcases mem_replaceNeqOps h3 with h4 | h4
        · exact Or.inl (by simp [h4])
        · exact Or.inr h4
      · rcases List.mem_cons.1 h with rfl | h2
        · exact Or.inr (Or.inl rfl)
        rcases List.mem_cons.1 h2 with rfl | h3
        · exact Or.inr (Or.inr rfl)
        rcases mem_replaceNeqOps h3 with h4 | h4
        · exact Or.inl (by simp [h4])
        · exact Or.inr h4
    · rcases List.mem_cons.1 h with rfl | h2
      · exact Or.inl (by simp)
      rcases mem_replaceNeqOps h2 with h4 | h4
      · exact Or.inl (by simp [h4])
      · exact Or.inr h4

/-! ### Capture-subset lemmas: every regex capture is made of characters of the line -/

theorem spacesFieldColon_sub {s b : Line} (h : spacesFieldColon s = some b) :
    ∀ c ∈ b, c ∈ s := by
  unfold spacesFieldColon at h
  dsimp only at h
  split at h
  · simp at h
  · next hsp =>
    rcases hsl : splitAtLast ':' (s.dropWhile isSpc) with _ | ⟨b', rest⟩ <;> rw [hsl] at h
    · simp at h
    · dsimp only at h
      split at h
      · split at h
        · cases h
          intro c hc
          simp only [List.mem_singleton] at hc
          subst hc
          exact mem_takeWhile (mem_lastCh (by simpa using hsp))
        · simp at h
      · cases h
        intro c hc
        have hdec := splitAtLast_eq hsl
        exact mem_dropWhile (l := s) (by rw [hdec]; simp [hc])

theorem spacesRest_sub {s v : Line} (h : spacesRest s = some v) : ∀ c ∈ v, c ∈ s := by
  unfold spacesRest at h
  dsimp only at h
  split at h
  · split at h
    · simp at h
    · next hne =>
      cases h
      intro c hc
      simp only [List.mem_singleton] at hc
      subst hc
      exact mem_lastCh (by simpa using hne)
  · cases h
    intro c hc
    exact mem_dropWhile hc

theorem spacesPlusRest_sub {s v : Line} (h : spacesPlusRest s = some v) :
    ∀ c ∈ v, c ∈ s := by
  unfold spacesPlusRest at h
  dsimp only at h
  split at h
  · simp at h
  · next hsp =>
    split at h
    · split at h
      · cases h
        intro c hc
        simp only [List.mem_singleton] at hc
        subst hc
        exact mem_takeWhile (mem_lastCh (by simpa using hsp))
      · simp at h
    · cases h
      intro c hc
      exact mem_dropWhile hc

theorem takeWord_fst_sub {s : Line} : ∀ c ∈ (takeWord s).1, c ∈ s := by
  intro c hc
  exact mem_takeWhile hc

theorem takeWord_snd_sub {s : Line} : ∀ c ∈ (takeWord s).2, c ∈ s := by
  intro c hc
  exact mem_dropWhile hc

theorem defMatch_sub {l n p : Line} (h : defMatch l = some (n, p)) :
    (∀ c ∈ n, c ∈ l) ∧ (∀ c ∈ p, c ∈ l) := by
  unfold defMatch at h
  rcases hsp : stripPfx ("def".data) l with _ | r1 <;> rw [hsp] at h
  · simp at h
  have hl1 : ∀ c ∈ r1, c ∈ l := by
    intro c hc
    rw [stripPfx_eq_append hsp]
    simp [hc]
  dsimp only at h
  split at h
  · simp at h
  have hl2 : ∀ c ∈ r1.dropWhile isSpc, c ∈ l := fun c hc => hl1 c (mem_dropWhile hc)
  rcases hw : takeWord (r1.dropWhile isSpc) with ⟨w, r3⟩
  rw [hw] at h
  dsimp only at h
  split at h
  · simp at h
  split at h
  · next r4 heq =>
    rcases hss : splitAtSub ("):".data) r4 with _ | ⟨params, rest⟩ <;> rw [hss] at h
    · simp at h
    cases h
    constructor
    · intro c hc
      apply hl2
      have hn : n = (takeWord (r1.dropWhile isSpc)).1 := by rw [hw]
      rw [hn] at hc
      exact mem_takeWhile hc
    · intro c hc
      have hr3 : ∀ c ∈ r3, c ∈ l := by
        intro c hc
        apply hl2
        have hr : r3 = (takeWord (r1.dropWhile isSpc)).2 := by rw [hw]
        rw [hr] at hc
        exact mem_dropWhile hc
      have hr4 : ∀ c ∈ r4, c ∈ l := by
        intro c hc
        have : c ∈ r3.dropWhile isSpc := by rw [heq]; simp [hc]
        exact hr3 c (mem_dropWhile this)
      apply hr4
      rw [splitAtSub_eq hss]
      simp [hc]
  · simp at h

theorem stripPfx_sub {p l r : Line} (h : stripPfx p l = some r) : ∀ c ∈ r, c ∈ l := by
  intro c hc
  rw [stripPfx_eq_append h]
  simp [hc]

theorem ifMatchPy_sub {l cond : Line} (h : ifMatchPy l = some cond) :
    ∀ c ∈ cond, c ∈ l := by
  unfold ifMatchPy at h
  rcases hsp : stripPfx ("if".data) l with _ | r <;> rw [hsp] at h
  · simp at h
  · intro c hc
    exact stripPfx_sub hsp c (spacesFieldColon_sub h c hc)

theorem forMatchPy_sub {l v it : Line} (h : forMatchPy l = some (v, it)) :
    (∀ c ∈ v, c ∈ l) ∧ (∀ c ∈ it, c ∈ l) := by
  unfold forMatchPy at h
  rcases hsp : stripPfx ("for".data) l with _ | r1 <;> rw [hsp] at h
  · simp at h
  dsimp only at h
  split at h
  · simp at h
  rcases hw : takeWord (r1.dropWhile isSpc) with ⟨w, r3⟩
  rw [hw] at h
  dsimp only at h
  split at h
  · simp at h
  split at h
  · simp at h
  rcases hsp2 : stripPfx ("in".data) (r3.dropWhile isSpc) with _ | r4 <;> rw [hsp2] at h
  · simp at h
  dsimp only at h
  rcases hsf : spacesFieldColon r4 with _ | it' <;> rw [hsf] at h
  · simp at h
  cases h
  have hr1 : ∀ c ∈ r1, c ∈ l := stripPfx_sub hsp
  have hr3 : ∀ c ∈ r3, c ∈ l := by
    intro c hc
    have : r3 = (takeWord (r1.dropWhile isSpc)).2 := by rw [hw]
    rw [this] at hc
    exact hr1 c (mem_dropWhile (mem_dropWhile hc))
  constructor
  · intro c hc
    have hv : v = (takeWord (r1.dropWhile isSpc)).1 := by rw [hw]
    rw [hv] at hc
    exact hr1 c (mem_dropWhile (mem_takeWhile hc))
  · intro c hc
    exact hr3 c (mem_dropWhile (stripPfx_sub hsp2 c (spacesFieldColon_sub hsf c hc)))

theorem printMatchPy_sub {l g : Line} (h : printMatchPy l = some g) : ∀ c ∈ g, c ∈ l := by
  unfold printMatchPy at h
  split at h
  · simp at h
  · rename_i r1 hsp
    split at h
    · rename_i r2 heq
      split at h
      · rename_i g' rest hsl
        cases h
        intro c hc
        apply stripPfx_sub hsp
        apply mem_dropWhile (p := isSpc)
        rw [heq, splitAtLast_eq hsl]
        simp [hc]
      · simp at h
    · simp at h

theorem assignMatchPy_sub {l n v : Line} (h : assignMatchPy l = some (n, v)) :
    (∀ c ∈ n, c ∈ l) ∧ (∀ c ∈ v, c ∈ l) := by
  unfold assignMatchPy at h
  rcases hw : takeWord l with ⟨w, r1⟩
  rw [hw] at h
  dsimp only at h
  split at h
  · simp at h
  split at h
  · next r2 heq =>
    rcases hsr : spacesRest r2 with _ | v' <;> rw [hsr] at h
    · simp at h
    cases h
    have hr1 : ∀ c ∈ r1, c ∈ l := by
      intro c hc
      have : r1 = (takeWord l).2 := by rw [hw]
      rw [this] at hc
      exact mem_dropWhile hc
    constructor
    · intro c hc
      have hn : n = (takeWord l).1 := by rw [hw]
      rw [hn] at hc
      exact mem_takeWhile hc
    · intro c hc
      apply hr1
      apply mem_dropWhile (p := isSpc)
      rw [heq]
      exact List.mem_cons_of_mem '=' (spacesRest_sub hsr c hc)
  · simp at h

theorem returnMatchPy_sub {l v : Line} (h : returnMatchPy l = some v) : ∀ c ∈ v, c ∈ l := by
  unfold returnMatchPy at h
  rcases hsp : stripPfx ("return".data) l with _ | r <;> rw [hsp] at h
  · simp at h
  · intro c hc
    exact stripPfx_sub hsp c (spacesPlusRest_sub h c hc)

theorem rangeAt_sub {l g : Line} (h : rangeAt l = some g) : ∀ c ∈ g, c ∈ l := by
  unfold rangeAt at h
  rcases hsp : stripPfx ("range(".data) l with _ | r <;> rw [hsp] at h
  · simp at h
  dsimp only at h
  rcases hsl : splitAtLast ')' r with _ | ⟨g', rest⟩ <;> rw [hsl] at h
  · simp at h
  dsimp only at h
  split at h
  · simp at h
  cases h
  intro c hc
  apply stripPfx_sub hsp
  rw [splitAtLast_eq hsl]
  simp [hc]

theorem rangeMatch_sub : ∀ {l g : Line}, rangeMatch l = some g → ∀ c ∈ g, c ∈ l := by
  intro l
  induction l with
  | nil => intro g h; simp [rangeMatch] at h
  | cons a as ih =>
    intro g h
    rw [rangeMatch] at h
    rcases hat : rangeAt (a :: as) with _ | g' <;> rw [hat] at h
    · intro c hc
      exact List.mem_cons_of_mem a (ih h c hc)
    · cases h
      exact rangeAt_sub hat

theorem forMatchPy_shape {l v it : Line} (h : forMatchPy l = some (v, it)) :
    ∃ r, l = 'f' :: 'o' :: 'r' :: r := by
  unfold forMatchPy at h
  rcases hsp : stripPfx ("for".data) l with _ | r1 <;> rw [hsp] at h
  · simp at h
  · exact ⟨r1, by simpa using stripPfx_eq_append hsp⟩

/-! ### Whitespace, trimming and line-splitting facts -/

theorem mem_repeatL {c : Char} {s : Line} : ∀ {k : Nat}, c ∈ repeatL s k → c ∈ s
  | 0, h => by simp [repeatL] at h
  | k + 1, h => by
    rw [repeatL] at h
    rcases List.mem_append.1 h with h2 | h2
    · exact h2
    · exact mem_repeatL h2

theorem dropWhile_append_all {p : Char → Bool} {sp z : Line}
    (h : ∀ c ∈ sp, p c = true) : (sp ++ z).dropWhile p = z.dropWhile p := by
  induction sp with
  | nil => simp
  | cons a as ih =>
    rw [List.cons_append, List.dropWhile_cons, h a (by simp)]
    exact ih (fun c hc => h c (List.mem_cons_of_mem a hc))

theorem trimL_spaces_append {sp z : Line} (h : ∀ c ∈ sp, isSpc c = true) :
    trimL (sp ++ z) = trimL z := by
  unfold trimL
  rw [dropWhile_append_all h]

theorem trimL_indent_append {u z : Line} {k : Nat} (h : ∀ c ∈ u, isSpc c = true) :
    trimL (repeatL u k ++ z) = trimL z :=
  trimL_spaces_append (fun c hc => h c (mem_repeatL hc))

theorem dropWhile_append_last {p : Char → Bool} {a : Line} {c : Char}
    (hc : p c = false) : (a ++ [c]).dropWhile p = a.dropWhile p ++ [c] := by
  induction a with
  | nil => simp [List.dropWhile_cons, hc]
  | cons x xs ih =>
    rw [List.cons_append, List.dropWhile_cons, List.dropWhile_cons]
    split
    · exact ih
    · rfl

theorem trim_cons_nonspace {c : Char} {xs : Line} (hc : isSpc c = false) :
    ∃ ys, trimL (c :: xs) = c :: ys := by
  unfold trimL
  rw [List.dropWhile_cons, hc]
  simp only [Bool.false_eq_true, if_false]
  have : (c :: xs).reverse = xs.reverse ++ [c] := by simp
  rw [this, dropWhile_append_last hc]
  exact ⟨(xs.reverse.dropWhile isSpc).reverse, by simp⟩

theorem trim_cons_eq_close {c : Char} {xs : Line} (hc : isSpc c = false)
    (h : trimL (c :: xs) = ['\x7d']) : c = '\x7d' := by
  obtain ⟨ys, hys⟩ := trim_cons_nonspace hc
  rw [hys] at h
  exact (List.cons.injEq .. ▸ h).1

theorem trimL_eq_self {x : Line} (h1 : x.dropWhile isSpc = x)
    (h2 : x.reverse.dropWhile isSpc = x.reverse) : trimL x = x := by
  unfold trimL
  rw [h1, h2, List.reverse_reverse]

theorem dropWhile_dropWhile (p : Char → Bool) (l : Line) :
    (l.dropWhile p).dropWhile p = l.dropWhile p := by
  induction l with
  | nil => rfl
  | cons c cs ih =>
    by_cases h : p c
    · simp [List.dropWhile_cons, h, ih]
    · simp [List.dropWhile_cons, h]

theorem trimL_reverse_dropWhile (l : Line) :
    (trimL l).reverse.dropWhile isSpc = (trimL l).reverse := by
  unfold trimL
  rw [List.reverse_reverse]
  exact dropWhile_dropWhile isSpc _

theorem trimL_trimL (l : Line) : trimL (trimL l) = trimL l :=
  trimL_eq_self (trimL_dropWhile l) (trimL_reverse_dropWhile l)

theorem splitLinesL_ne_nil : ∀ (x : Line), splitLinesL x ≠ []
  | [] => by simp [splitLinesL]
  | c :: cs => by
    rcases hs : splitLinesL cs with _ | ⟨a, as⟩
    · exact absurd hs (splitLinesL_ne_nil cs)
    · have heq : splitLinesL (c :: cs) =
          if c = '\n' then [] :: a :: as else (c :: a) :: as := by
        rw [splitLinesL, hs]
      rw [heq]
      split <;> simp

theorem splitLines_no_newline : ∀ {x : Line}, '\n' ∉ x → splitLinesL x = [x]
  | [], _ => rfl
  | c :: cs, h => by
    have hcs : splitLinesL cs = [cs] := splitLines_no_newline (fun h2 => h (by simp [h2]))
    have heq : splitLinesL (c :: cs) = if c = '\n' then [] :: [cs] else [c :: cs] := by
      rw [splitLinesL, hcs]
    have hc : ¬(c = '\n') := fun h2 => h (by simp [h2])
    rw [heq, if_neg hc]

theorem splitLines_append_newline : ∀ {x r : Line}, '\n' ∉ x →
    splitLinesL (x ++ '\n' :: r) = x :: splitLinesL r
  | [], r, _ => by
    rw [List.nil_append]
    rcases hs : splitLinesL r with _ | ⟨a, as⟩
    · exact absurd hs (splitLinesL_ne_nil r)
    · have heq : splitLinesL ('\n' :: r) = [] :: a :: as := by
        rw [splitLinesL, hs]
        simp
      rw [heq]
  | c :: cs, r, h => by
    have hcs := splitLines_append_newline (x := cs) (r := r)
      (fun h2 => h (by simp [h2]))
    rcases hs : splitLinesL r with _ | ⟨a, as⟩
    · exact absurd hs (splitLinesL_ne_nil r)
    have hc : ¬(c = '\n') := fun h2 => h (by simp [h2])
    have heq : splitLinesL (c :: cs ++ '\n' :: r) = (c :: cs) :: splitLinesL r := by
      rw [List.cons_append, splitLinesL, hcs, hs]
      simp [hc]
    rw [heq, hs]

theorem split_join : ∀ {ls : List Line}, ls ≠ [] → (∀ l ∈ ls, '\n' ∉ l) →
    splitLinesL (joinLinesL ls) = ls
  | [], h, _ => absurd rfl h
  | [x], _, hnl => by
    rw [joinLinesL]
    exact splitLines_no_newline (hnl x (by simp))
  | x :: y :: ys, _, hnl => by
    rw [joinLinesL, splitLines_append_newline (hnl x (by simp))]
    rw [split_join (show (y :: ys : List Line) ≠ [] by simp)
      (fun l hl => hnl l (List.mem_cons_of_mem x hl))]

theorem pyPopLoop_parts : ∀ (st : List Nat) (w : Nat), st ≠ [] →
    (GitHubApi.pyPopLoop st w).1.length + (GitHubApi.pyPopLoop st w).2.length = st.length ∧
    (GitHubApi.pyPopLoop st w).2 ≠ [] ∧
    ∀ x ∈ (GitHubApi.pyPopLoop st w).1, trimL x = ['\x7d']
  | [], _, h => absurd rfl h
  | [a], w, _ => by simp [GitHubApi.pyPopLoop]
  | a :: b :: rs, w, _ => by
    by_cases hw : w < a
    · have ih := pyPopLoop_parts (b :: rs) w (by simp)
      simp only [GitHubApi.pyPopLoop, if_pos hw]
      refine ⟨?_, ih.2.1, ?_⟩
      · have h1 := ih.1
        simp only [List.length_cons] at h1 ⊢
        omega
      · intro x hx
        rcases List.mem_cons.1 hx with rfl | hx2
        · rw [trimL_indent_append (by decide)]
          decide
        · exact ih.2.2 x hx2
    · simp [GitHubApi.pyPopLoop, hw]

theorem pyFlush_parts : ∀ (st : List Nat),
    (GitHubApi.pyFlush st).length = st.length - 1 ∧
    ∀ x ∈ GitHubApi.pyFlush st, trimL x = ['\x7d']
  | [] => by simp [GitHubApi.pyFlush]
  | [a] => by simp [GitHubApi.pyFlush]
  | a :: b :: rs => by
    have ih := pyFlush_parts (b :: rs)
    constructor
    · rw [GitHubApi.pyFlush]
      simp only [List.length_cons, ih.1]
      simp
    · rw [GitHubApi.pyFlush]
      intro x hx
      rcases List.mem_cons.1 hx with rfl | hx2
      · rw [trimL_indent_append (by decide)]
        decide
      · exact ih.2 x hx2

theorem forall_mem_append {P : Char → Prop} {A B : Line}
    (hA : ∀ c ∈ A, P c) (hB : ∀ c ∈ B, P c) : ∀ c ∈ A ++ B, P c := by
  intro c hc
  rcases List.mem_append.1 hc with h | h
  · exact hA c h
  · exact hB c h

theorem forall_mem_cons_c {P : Char → Prop} {a : Char} {B : Line}
    (ha : P a) (hB : ∀ c ∈ B, P c) : ∀ c ∈ a :: B, P c := by
  intro c hc
  rcases List.mem_cons.1 hc with rfl | h
  · exact ha
  · exact hB c h

/-- All characters the Python→JS line templates can introduce. -/
def pyConstChars : Line := ("functiolesgr0 ()\x7b\x7d:;=<+.,".data)

theorem pyLineConvert_mem {t : Line} :
    ∀ c ∈ GitHubApi.pyLineConvert t, c ∈ t ∨ c ∈ pyConstChars := by
  unfold GitHubApi.pyLineConvert
  split
  · next n p hsd =>
    intro c hc
    repeat' (rw [List.mem_append] at hc; rcases hc with hc | hc)
    all_goals first
    | exact Or.inl ((defMatch_sub hsd).1 c hc)
    | (rw [List.mem_cons] at hc
       rcases hc with rfl | hc
       · exact Or.inr (by decide)
       · exact Or.inl ((defMatch_sub hsd).2 c hc))
    | (refine Or.inr ?_
       revert hc
       revert c
       decide)
  split
  · next cond hsi =>
    intro c hc
    repeat' (rw [List.mem_append] at hc; rcases hc with hc | hc)
    all_goals first
    | exact Or.inl (ifMatchPy_sub hsi c (mem_trimL hc))
    | (refine Or.inr ?_
       revert hc
       revert c
       decide)
  split
  · next v it hsf =>
    have hv : ∀ c ∈ v, c ∈ t := (forMatchPy_sub hsf).1
    have hit : ∀ c ∈ it, c ∈ t := (forMatchPy_sub hsf).2
    split
    · next g hrg =>
      have hargs : ∀ a ∈ (splitOnComma g).map trimL, ∀ c ∈ a, c ∈ t := by
        intro a ha c hc
        obtain ⟨part, hpart, rfl⟩ := List.mem_map.1 ha
        exact hit c (rangeMatch_sub hrg c (mem_splitOnComma hpart (mem_trimL hc)))
      try dsimp only
      split
      · next a heqa =>
        have ha : ∀ c ∈ a, c ∈ t := hargs a (by rw [heqa]; simp)
        intro c hc
        repeat' (rw [List.mem_append] at hc; rcases hc with hc | hc)
        all_goals first
        | exact Or.inl (hv c hc)
        | exact Or.inl (ha c hc)
        | (refine Or.inr ?_
           revert hc
           revert c
           decide)
      · next a b heqa =>
        have ha : ∀ c ∈ a, c ∈ t := hargs a (by rw [heqa]; simp)
        have hb : ∀ c ∈ b, c ∈ t := hargs b (by rw [heqa]; simp)
        intro c hc
        repeat' (rw [List.mem_append] at hc; rcases hc with hc | hc)
        all_goals first
        | exact Or.inl (hv c hc)
        | exact Or.inl (ha c hc)
        | exact Or.inl (hb c hc)
        | (refine Or.inr ?_
           revert hc
           revert c
           decide)
      · next a b d heqa =>
        have ha : ∀ c ∈ a, c ∈ t := hargs a (by rw [heqa]; simp)
        have hb : ∀ c ∈ b, c ∈ t := hargs b (by rw [heqa]; simp)
        have hd : ∀ c ∈ d, c ∈ t := hargs d (by rw [heqa]; simp)
        intro c hc
        repeat' (rw [List.mem_append] at hc; rcases hc with hc | hc)
        all_goals first
        | exact Or.inl (hv c hc)
        | exact Or.inl (ha c hc)
        | exact Or.inl (hb c hc)
        | exact Or.inl (hd c hc)
        | (refine Or.inr ?_
           revert hc
           revert c
           decide)
      · exact fun c hc => Or.inl hc
    · intro c hc
      repeat' (rw [List.mem_append] at hc; rcases hc with hc | hc)
      all_goals first
      | exact Or.inl (hv c hc)
      | exact Or.inl (hit c hc)
      | (refine Or.inr ?_
         revert hc
         revert c
         decide)
  split
  · next g hsp =>
    intro c hc
    repeat' (rw [List.mem_append] at hc; rcases hc with hc | hc)
    all_goals first
    | exact Or.inl (printMatchPy_sub hsp c hc)
    | (refine Or.inr ?_
       revert hc
       revert c
       decide)
  split
  · next n v hsa =>
    intro c hc
    repeat' (rw [List.mem_append] at hc; rcases hc with hc | hc)
    all_goals first
    | exact Or.inl ((assignMatchPy_sub hsa).1 c hc)
    | exact Or.inl ((assignMatchPy_sub hsa).2 c hc)
    | (refine Or.inr ?_
       revert hc
       revert c
       decide)
  split
  · next v hsr =>
    intro c hc
    repeat' (rw [List.mem_append] at hc; rcases hc with hc | hc)
    all_goals first
    | exact Or.inl (returnMatchPy_sub hsr c hc)
    | (refine Or.inr ?_
       revert hc
       revert c
       decide)
  split
  · exact fun c hc => Or.inl hc
  · intro c hc
    repeat' (rw [List.mem_append] at hc; rcases hc with hc | hc)
    all_goals first
    | exact Or.inl hc
    | (refine Or.inr ?_
       revert hc
       revert c
       decide)

/-- A trimmed nonempty line other than a lone closing brace never
converts (via `pyLineConvert`) to a line trimming to a lone closing
brace: every rebuilt template starts with a non-space letter other than
the closing brace, and the passthrough/semicolon branches preserve the
line's ends. -/
theorem pyLineConvert_not_close {t : Line} (h1 : t.dropWhile isSpc = t)
    (h2 : t.reverse.dropWhile isSpc = t.reverse) (hne : t ≠ [])
    (hnc : t ≠ ['\x7d']) : trimL (GitHubApi.pyLineConvert t) ≠ ['\x7d'] := by
  unfold GitHubApi.pyLineConvert
  split
  · intro heq
    exact absurd (trim_cons_eq_close (by decide) heq) (by decide)
  split
  · intro heq
    exact absurd (trim_cons_eq_close (by decide) heq) (by decide)
  split
  · split
    · try dsimp only
      split
      · intro heq
        exact absurd (trim_cons_eq_close (by decide) heq) (by decide)
      · intro heq
        exact absurd (trim_cons_eq_close (by decide) heq) (by decide)
      · intro heq
        exact absurd (trim_cons_eq_close (by decide) heq) (by decide)
      · intro heq
        exact hnc (by rwa [trimL_eq_self h1 h2] at heq)
    · intro heq
      exact absurd (trim_cons_eq_close (by decide) heq) (by decide)
  split
  · intro heq
    exact absurd (trim_cons_eq_close (by decide) heq) (by decide)
  split
  · intro heq
    exact absurd (trim_cons_eq_close (by decide) heq) (by decide)
  split
  · intro heq
    exact absurd (trim_cons_eq_close (by decide) heq) (by decide)
  split
  · intro heq
    exact hnc (by rwa [trimL_eq_self h1 h2] at heq)
  · rcases t with _ | ⟨c, cs⟩
    · exact absurd rfl hne
    · have hc : isSpc c = false := by
        by_contra hcT
        rw [Bool.not_eq_false] at hcT
        rw [List.dropWhile_cons, hcT, if_pos rfl] at h1
        have hlen := congrArg List.length h1
        have hle := (List.dropWhile_suffix (l := cs) (p := isSpc)).length_le
        simp only [List.length_cons] at hlen
        omega
      have e1 : ((c :: cs) ++ [';']).dropWhile isSpc = (c :: cs) ++ [';'] := by
        simp [List.cons_append, List.dropWhile_cons, hc]
      have e2 : ((c :: cs) ++ [';']).reverse.dropWhile isSpc =
          ((c :: cs) ++ [';']).reverse := by
        have hsemi : isSpc ';' = false := by decide
        simp [List.reverse_append, List.dropWhile_cons, hsemi]
      intro heq
      rw [trimL_eq_self e1 e2] at heq
      have hlen := congrArg List.length heq
      simp [List.length_append] at hlen

/-- The converted line pushed by the main branch of the Python→JS loop
trims to a lone closing brace exactly when the input line does. -/
theorem pyConverted_close_iff {raw : Line} {k : Nat}
    (hne : ¬((trimL raw).isEmpty = true)) :
    trimL (repeatL ("  ".data) k ++ GitHubApi.pyLineConvert (trimL raw)) = ['\x7d']
      ↔ trimL raw = ['\x7d'] := by
  rw [trimL_indent_append (by decide)]
  constructor
  · intro h
    by_contra hnc
    exact pyLineConvert_not_close (trimL_dropWhile raw) (trimL_reverse_dropWhile raw)
      (fun hnil => hne (by rw [hnil]; rfl)) hnc h
  · intro h
    rw [h]
    decide

/-- The number of lines of a line list trimming to a lone closing
brace. -/
def closeCnt (ls : List Line) : Nat :=
  (ls.filter (fun l => trimL l = ['\x7d'])).length

theorem closeCnt_append (a b : List Line) :
    closeCnt (a ++ b) = closeCnt a + closeCnt b := by
  unfold closeCnt
  rw [List.filter_append, List.length_append]

theorem closeCnt_cons (l : Line) (ls : List Line) :
    closeCnt (l :: ls) = (if trimL l = ['\x7d'] then 1 else 0) + closeCnt ls := by
  by_cases h : trimL l = ['\x7d']
  · simp [closeCnt, List.filter_cons, h, Nat.add_comm]
  · simp [closeCnt, List.filter_cons, h]

theorem closeCnt_single_eq {x : Line} (h : trimL x = ['\x7d']) :
    closeCnt [x] = 1 := by
  simp [closeCnt, h]

theorem closeCnt_single_ne {x : Line} (h : ¬(trimL x = ['\x7d'])) :
    closeCnt [x] = 0 := by
  simp [closeCnt, h]

theorem closeCnt_all (ls : List Line) (h : ∀ x ∈ ls, trimL x = ['\x7d']) :
    closeCnt ls = ls.length := by
  induction ls with
  | nil => rfl
  | cons a as ih =>
    rw [closeCnt_cons, if_pos (h a (by simp)),
      ih (fun x hx => h x (List.mem_cons_of_mem a hx))]
    simp only [List.length_cons]
    omega

/-- Lines produced by `splitLinesL` never contain a newline. -/
theorem mem_splitLinesL_nn : ∀ {x : Line}, ∀ l ∈ splitLinesL x, '\n' ∉ l
  | [] => by
    intro l hl
    simp [splitLinesL] at hl
    subst hl
    simp
  | c :: cs => by
    intro l hl
    rcases hs : splitLinesL cs with _ | ⟨a, as⟩
    · exact absurd hs (splitLinesL_ne_nil cs)
    · have ih := mem_splitLinesL_nn (x := cs)
      rw [hs] at ih
      have heq : splitLinesL (c :: cs) =
          if c = '\n' then [] :: a :: as else (c :: a) :: as := by
        rw [splitLinesL, hs]
      rw [heq] at hl
      by_cases hcn : c = '\n'
      · rw [if_pos hcn] at hl
        rcases List.mem_cons.1 hl with rfl | hl2
        · simp
        · exact ih l hl2
      · rw [if_neg hcn] at hl
        rcases List.mem_cons.1 hl with rfl | hl2
        · intro hmem
          rcases List.mem_cons.1 hmem with h3 | h3
          · exact hcn h3.symm
          · exact ih a (by simp) h3
        · exact ih l (List.mem_cons_of_mem a hl2)

theorem pyPopLoop_fst_nn : ∀ (st : List Nat) (w : Nat),
    ∀ x ∈ (GitHubApi.pyPopLoop st w).1, '\n' ∉ x
  | [], _ => by simp [GitHubApi.pyPopLoop]
  | [a], _ => by simp [GitHubApi.pyPopLoop]
  | a :: b :: rs, w => by
    by_cases hw : w < a
    · simp only [GitHubApi.pyPopLoop, if_pos hw]
      intro x hx
      rcases List.mem_cons.1 hx with rfl | hx2
      · intro hmem
        rcases List.mem_append.1 hmem with h | h
        · exact absurd (mem_repeatL h) (by decide)
        · exact absurd h (by decide)
      · exact pyPopLoop_fst_nn (b :: rs) w x hx2
    · simp [GitHubApi.pyPopLoop, hw]

theorem pyFlush_nn : ∀ (st : List Nat), ∀ x ∈ GitHubApi.pyFlush st, '\n' ∉ x
  | [] => by simp [GitHubApi.pyFlush]
  | [a] => by simp [GitHubApi.pyFlush]
  | a :: b :: rs => by
    rw [GitHubApi.pyFlush]
    intro x hx
    rcases List.mem_cons.1 hx with rfl | hx2
    · intro hmem
      rcases List.mem_append.1 hmem with h | h
      · exact absurd (mem_repeatL h) (by decide)
      · exact absurd h (by decide)
    · exact pyFlush_nn (b :: rs) x hx2

theorem pyToJsStep_fst_nn {st : List Nat} {cur : Nat} {l : Line}
    (hl : '\n' ∉ l) : ∀ x ∈ (GitHubApi.pyToJsStep st cur l).1, '\n' ∉ x := by
  unfold GitHubApi.pyToJsStep
  try dsimp only
  split
  · intro x hx
    simp only [List.mem_singleton] at hx
    subst hx
    simp
  split
  · intro x hx
    simp only [List.mem_singleton] at hx
    subst hx
    intro hmem
    rcases List.mem_append.1 hmem with h | h
    · rcases List.mem_append.1 h with h2 | h2
      · exact absurd (mem_repeatL h2) (by decide)
      · exact absurd h2 (by decide)
    · exact hl (mem_trimL (List.mem_of_mem_drop h))
  · intro x hx
    rcases List.mem_append.1 hx with h | h
    · split at h
      · exact pyPopLoop_fst_nn _ _ x h
      · simp at h
    · simp only [List.mem_singleton] at h
      subst h
      intro hmem
      rcases List.mem_append.1 hmem with h2 | h2
      · exact absurd (mem_repeatL h2) (by decide)
      · rcases pyLineConvert_mem _ h2 with h3 | h3
        · exact hl (mem_trimL h3)
        · exact absurd h3 (by decide)

theorem pyToJsGo_nn : ∀ (ls : List Line) (st : List Nat) (cur : Nat),
    (∀ l ∈ ls, '\n' ∉ l) → ∀ x ∈ GitHubApi.pyToJsGo ls st cur, '\n' ∉ x
  | [], st, cur, _ => by
    rw [GitHubApi.pyToJsGo]
    exact pyFlush_nn st
  | l :: ls, st, cur, h => by
    rw [GitHubApi.pyToJsGo]
    try dsimp only
    intro x hx
    rcases List.mem_append.1 hx with h2 | h2
    · exact pyToJsStep_fst_nn (h l (by simp)) x h2
    · exact pyToJsGo_nn ls _ _ (fun y hy => h y (List.mem_cons_of_mem l hy)) x h2

theorem pyToJsStep_fst_ne_nil (st : List Nat) (cur : Nat) (l : Line) :
    (GitHubApi.pyToJsStep st cur l).1 ≠ [] := by
  unfold GitHubApi.pyToJsStep
  try dsimp only
  split
  · simp
  split
  · simp
  · intro hcontra
    have hlen := congrArg List.length hcontra
    simp [List.length_append] at hlen

/-- Close-brace counting over the Python→JS processing loop: the number
of emitted lines trimming to a lone closing brace equals the currently
open depth plus all future stack pushes plus the close-brace lines of
the remaining input. -/
theorem pyToJsGo_closeCnt : ∀ (ls : List Line) (st : List Nat) (cur : Nat),
    st ≠ [] → closeCnt (GitHubApi.pyToJsGo ls st cur) =
      (st.length - 1) + pyPushCountGo ls st cur + closeCnt ls
  | [], st, cur, hst => by
    rw [GitHubApi.pyToJsGo, pyPushCountGo]
    have hp := pyFlush_parts st
    rw [closeCnt_all _ hp.2, hp.1]
    simp [closeCnt]
  | l :: ls, st, cur, hst => by
    rw [GitHubApi.pyToJsGo, pyPushCountGo, closeCnt_cons]
    try dsimp only
    rw [closeCnt_append]
    by_cases hE : (trimL l).isEmpty = true
    · have hstep : GitHubApi.pyToJsStep st cur l = ([[]], st, cur) := by
        unfold GitHubApi.pyToJsStep
        try dsimp only
        rw [if_pos hE]
      have hnc : ¬(trimL l = ['\x7d']) := by
        intro h
        rw [h] at hE
        exact absurd hE (by decide)
      rw [if_pos hE, if_neg hnc, hstep]
      try dsimp only
      rw [pyToJsGo_closeCnt ls st cur hst]
      have h00 : closeCnt [[]] = 0 := rfl
      rw [h00]
      omega
    · by_cases hC : pfx ("#".data) (trimL l) = true
      · have hstep : GitHubApi.pyToJsStep st cur l =
            ([repeatL ("  ".data) (st.length - 1) ++ ("// ".data) ++
              (trimL l).drop 1], st, cur) := by
          unfold GitHubApi.pyToJsStep
          try dsimp only
          rw [if_neg hE, if_pos hC]
        have hnc : ¬(trimL l = ['\x7d']) := by
          intro h
          rw [h] at hC
          exact absurd hC (by decide)
        have hcc : closeCnt [repeatL ("  ".data) (st.length - 1) ++ ("// ".data) ++
            (trimL l).drop 1] = 0 := by
          refine closeCnt_single_ne ?_
          rw [List.append_assoc, trimL_indent_append (by decide)]
          intro heq
          exact absurd (trim_cons_eq_close (by decide) heq) (by decide)
        rw [if_neg hE, if_pos hC, if_neg hnc, hstep]
        try dsimp only
        rw [hcc, pyToJsGo_closeCnt ls st cur hst]
        omega
      · rw [if_neg hE, if_neg hC]
        by_cases hPop : leadingWS l < cur
        · simp only [if_pos hPop]
          have hparts := pyPopLoop_parts st (leadingWS l) hst
          have h2pos : 0 < (GitHubApi.pyPopLoop st (leadingWS l)).2.length :=
            List.length_pos.2 hparts.2.1
          by_cases hPush : GitHubApi.pyToJsStep.stack1Top
              (GitHubApi.pyPopLoop st (leadingWS l)).2 < leadingWS l
          · simp only [if_pos hPush]
            have hstep : GitHubApi.pyToJsStep st cur l =
                ((GitHubApi.pyPopLoop st (leadingWS l)).1 ++
                  [repeatL ("  ".data)
                    ((leadingWS l :: (GitHubApi.pyPopLoop st (leadingWS l)).2).length - 1) ++
                    GitHubApi.pyLineConvert (trimL l)],
                 leadingWS l :: (GitHubApi.pyPopLoop st (leadingWS l)).2,
                 leadingWS l) := by
              unfold GitHubApi.pyToJsStep
              try dsimp only
              rw [if_neg hE, if_neg hC, if_pos hPop, if_pos hPush]
            rw [hstep]
            try dsimp only
            rw [closeCnt_append, closeCnt_all _ hparts.2.2]
            have hcc : closeCnt [repeatL ("  ".data)
                ((leadingWS l :: (GitHubApi.pyPopLoop st (leadingWS l)).2).length - 1) ++
                GitHubApi.pyLineConvert (trimL l)] =
                (if trimL l = ['\x7d'] then 1 else 0) := by
              by_cases hcl : trimL l = ['\x7d']
              · rw [if_pos hcl]
                exact closeCnt_single_eq ((pyConverted_close_iff hE).2 hcl)
              · rw [if_neg hcl]
                exact closeCnt_single_ne
                  (fun hcon => hcl ((pyConverted_close_iff hE).1 hcon))
            rw [hcc, pyToJsGo_closeCnt ls _ _ (by simp)]
            have hlen := hparts.1
            simp only [List.length_cons]
            omega
          · simp only [if_neg hPush]
            have hstep : GitHubApi.pyToJsStep st cur l =
                ((GitHubApi.pyPopLoop st (leadingWS l)).1 ++
                  [repeatL ("  ".data)
                    ((GitHubApi.pyPopLoop st (leadingWS l)).2.length - 1) ++
                    GitHubApi.pyLineConvert (trimL l)],
                 (GitHubApi.pyPopLoop st (leadingWS l)).2,
                 leadingWS l) := by
              unfold GitHubApi.pyToJsStep
              try dsimp only
              rw [if_neg hE, if_neg hC, if_pos hPop, if_neg hPush]
            rw [hstep]
            try dsimp only
            rw [closeCnt_append, closeCnt_all _ hparts.2.2]
            have hcc : closeCnt [repeatL ("  ".data)
                ((GitHubApi.pyPopLoop st (leadingWS l)).2.length - 1) ++
                GitHubApi.pyLineConvert (trimL l)] =
                (if trimL l = ['\x7d'] then 1 else 0) := by
              by_cases hcl : trimL l = ['\x7d']
              · rw [if_pos hcl]
                exact closeCnt_single_eq ((pyConverted_close_iff hE).2 hcl)
              · rw [if_neg hcl]
                exact closeCnt_single_ne
                  (fun hcon => hcl ((pyConverted_close_iff hE).1 hcon))
            rw [hcc, pyToJsGo_closeCnt ls _ _ hparts.2.1]
            have hlen := hparts.1
            omega
        · simp only [if_neg hPop]
          by_cases hPush : GitHubApi.pyToJsStep.stack1Top st < leadingWS l
          · simp only [if_pos hPush]
            have hstep : GitHubApi.pyToJsStep st cur l =
                ([repeatL ("  ".data) ((leadingWS l :: st).length - 1) ++
                    GitHubApi.pyLineConvert (trimL l)],
                 leadingWS l :: st, leadingWS l) := by
              unfold GitHubApi.pyToJsStep
              try dsimp only
              rw [if_neg hE, if_neg hC, if_neg hPop, if_pos hPush]
              simp
            rw [hstep]
            try dsimp only
            have hcc : closeCnt [repeatL ("  ".data) ((leadingWS l :: st).length - 1) ++
                GitHubApi.pyLineConvert (trimL l)] =
                (if trimL l = ['\x7d'] then 1 else 0) := by
              by_cases hcl : trimL l = ['\x7d']
              · rw [if_pos hcl]
                exact closeCnt_single_eq ((pyConverted_close_iff hE).2 hcl)
              · rw [if_neg hcl]
                exact closeCnt_single_ne
                  (fun hcon => hcl ((pyConverted_close_iff hE).1 hcon))
            rw [hcc, pyToJsGo_closeCnt ls _ _ (by simp)]
            have h1pos : 0 < st.length := List.length_pos.2 hst
            simp only [List.length_cons]
            omega
          · simp only [if_neg hPush]
            have hstep : GitHubApi.pyToJsStep st cur l =
                ([repeatL ("  ".data) (st.length - 1) ++
                    GitHubApi.pyLineConvert (trimL l)],
                 st, leadingWS l) := by
              unfold GitHubApi.pyToJsStep
              try dsimp only
              rw [if_neg hE, if_neg hC, if_neg hPop, if_neg hPush]
              simp
            rw [hstep]
            try dsimp only
            have hcc : closeCnt [repeatL ("  ".data) (st.length - 1) ++
                GitHubApi.pyLineConvert (trimL l)] =
                (if trimL l = ['\x7d'] then 1 else 0) := by
              by_cases hcl : trimL l = ['\x7d']
              · rw [if_pos hcl]
                exact closeCnt_single_eq ((pyConverted_close_iff hE).2 hcl)
              · rw [if_neg hcl]
                exact closeCnt_single_ne
                  (fun hcon => hcl ((pyConverted_close_iff hE).1 hcon))
            rw [hcc, pyToJsGo_closeCnt ls _ _ hst]
            omega

/-- C3 (amended): for every Python source text, the number of output
lines of `convertPythonToJavaScript` whose trimmed content is the lone
closing brace equals the total number of indentation-stack pushes
performed on the input plus the number of input lines whose trimmed
content is already the lone closing brace. -/
theorem claim3_close_braces_amended (src : String) :
    closeLineCount (GitHubApi.convertPythonToJavaScript src) =
      pyPushCount src + closeLineCount src := by
  have hnn : ∀ l ∈ splitLinesL src.data, '\n' ∉ l := fun l hl => mem_splitLinesL_nn l hl
  have hout_nn : ∀ x ∈ GitHubApi.pyToJsGo (splitLinesL src.data) [0] 0, '\n' ∉ x :=
    pyToJsGo_nn _ _ _ hnn
  have hout_ne : GitHubApi.pyToJsGo (splitLinesL src.data) [0] 0 ≠ [] := by
    rcases hs : splitLinesL src.data with _ | ⟨a, as⟩
    · exact absurd hs (splitLinesL_ne_nil _)
    · rw [GitHubApi.pyToJsGo]
      try dsimp only
      intro hcontra
      rcases List.append_eq_nil.1 hcontra with ⟨h1, _⟩
      exact pyToJsStep_fst_ne_nil _ _ _ h1
  have hCL : ∀ s : String, closeLineCount s = closeCnt (splitLinesL s.data) :=
    fun s => rfl
  rw [hCL, hCL]
  rw [show (GitHubApi.convertPythonToJavaScript src).data =
    joinLinesL (GitHubApi.pyToJsGo (splitLinesL src.data) [0] 0) from rfl]
  rw [split_join hout_ne hout_nn]
  rw [pyToJsGo_closeCnt _ _ _ (by simp), pyPushCount]
  simp only [List.length_cons, List.length_nil]
  omega

/-! ### Character provenance of the JavaScript→Swift conversion -/

theorem lazyToEndField_sub {s v : Line} (h : lazyToEndField s = some v) :
    ∀ c ∈ v, c ∈ s := by
  unfold lazyToEndField at h
  try dsimp only at h
  split at h
  · split at h
    · exact absurd h (by simp)
    · next hse =>
      cases h
      intro c hc
      rw [List.mem_singleton] at hc
      subst hc
      exact mem_lastCh (fun hnil => hse (by rw [hnil]; rfl))
  · split at h
    · cases h
      intro c hc
      exact mem_dropWhile (mem_dropLast hc)
    · cases h
      intro c hc
      exact mem_dropWhile hc

theorem funcDeclAt_sub {l n p r : Line} (h : funcDeclAt l = some (n, p, r)) :
    (∀ c ∈ n, c ∈ l) ∧ (∀ c ∈ p, c ∈ l) ∧ (∀ c ∈ r, c ∈ l) := by
  unfold funcDeclAt at h
  rcases hsp : stripPfx ("function".data) l with _ | r1 <;> rw [hsp] at h
  · simp at h
  have hl1 : ∀ c ∈ r1, c ∈ l := by
    intro c hc
    rw [stripPfx_eq_append hsp]
    simp [hc]
  dsimp only at h
  split at h
  · simp at h
  have hl2 : ∀ c ∈ r1.dropWhile isSpc, c ∈ l := fun c hc => hl1 c (mem_dropWhile hc)
  rcases hw : takeWord (r1.dropWhile isSpc) with ⟨w, r3⟩
  rw [hw] at h
  dsimp only at h
  split at h
  · simp at h
  have hn : ∀ c ∈ w, c ∈ l := by
    intro c hc
    apply hl2
    have hwfst : w = (takeWord (r1.dropWhile isSpc)).1 := by rw [hw]
    rw [hwfst] at hc
    exact mem_takeWhile hc
  have hr3 : ∀ c ∈ r3, c ∈ l := by
    intro c hc
    apply hl2
    have hwsnd : r3 = (takeWord (r1.dropWhile isSpc)).2 := by rw [hw]
    rw [hwsnd] at hc
    exact mem_dropWhile hc
  split at h
  · next r5 heq =>
    have hr5 : ∀ c ∈ r5, c ∈ l := by
      intro c hc
      have h2 : c ∈ r3.dropWhile isSpc := by rw [heq]; simp [hc]
      exact hr3 c (mem_dropWhile h2)
    rcases hsf : splitAtFirst ')' r5 with _ | ⟨params, rest⟩ <;> rw [hsf] at h
    · simp at h
    cases h
    refine ⟨hn, ?_, ?_⟩
    · intro c hc
      refine hr5 c ?_
      rw [splitAtFirst_eq hsf]
      simp [hc]
    · intro c hc
      refine hr5 c ?_
      rw [splitAtFirst_eq hsf]
      simp [hc]
  · simp at h

theorem funcDeclSearch_sub : ∀ {l n p r : Line},
    funcDeclSearch l = some (n, p, r) →
    (∀ c ∈ n, c ∈ l) ∧ (∀ c ∈ p, c ∈ l) ∧ (∀ c ∈ r, c ∈ l)
  | [], n, p, r, h => by simp [funcDeclSearch] at h
  | c0 :: cs, n, p, r, h => by
    rw [funcDeclSearch] at h
    rcases ha : funcDeclAt (c0 :: cs) with _ | res <;> rw [ha] at h
    · have ih := funcDeclSearch_sub h
      exact ⟨fun c hc => List.mem_cons_of_mem c0 (ih.1 c hc),
             fun c hc => List.mem_cons_of_mem c0 (ih.2.1 c hc),
             fun c hc => List.mem_cons_of_mem c0 (ih.2.2 c hc)⟩
    · cases h
      exact funcDeclAt_sub ha

theorem ifMatchJs_sub {l cond rest : Line} (h : ifMatchJs l = some (cond, rest)) :
    (∀ c ∈ cond, c ∈ l) ∧ (∀ c ∈ rest, c ∈ l) := by
  unfold ifMatchJs at h
  rcases hsp : stripPfx ("if".data) (l.dropWhile isSpc) with _ | r1 <;> rw [hsp] at h
  · simp at h
  have hl1 : ∀ c ∈ r1, c ∈ l := by
    intro c hc
    refine mem_dropWhile (p := isSpc) ?_
    rw [stripPfx_eq_append hsp]
    simp [hc]
  dsimp only at h
  split at h
  · next r2 heq =>
    have hr2 : ∀ c ∈ r2, c ∈ l := by
      intro c hc
      exact hl1 c (mem_dropWhile (by rw [heq]; simp [hc]))
    have he := splitAtLast_eq h
    constructor
    · intro c hc
      exact hr2 c (by rw [he]; simp [hc])
    · intro c hc
      exact hr2 c (by rw [he]; simp [hc])
  · simp at h

theorem varTryKw_sub {kw r0 k2 n v : Line} (h : varTryKw kw r0 = some (k2, n, v)) :
    (∀ c ∈ n, c ∈ r0) ∧ (∀ c ∈ v, c ∈ r0) := by
  unfold varTryKw at h
  rcases hsp : stripPfx kw r0 with _ | r1 <;> rw [hsp] at h
  · simp at h
  have hl1 : ∀ c ∈ r1, c ∈ r0 := by
    intro c hc
    rw [stripPfx_eq_append hsp]
    simp [hc]
  dsimp only at h
  split at h
  · simp at h
  have hl2 : ∀ c ∈ r1.dropWhile isSpc, c ∈ r0 := fun c hc => hl1 c (mem_dropWhile hc)
  rcases hw : takeWord (r1.dropWhile isSpc) with ⟨w, r3⟩
  rw [hw] at h
  dsimp only at h
  split at h
  · simp at h
  have hn : ∀ c ∈ w, c ∈ r0 := by
    intro c hc
    apply hl2
    have hwfst : w = (takeWord (r1.dropWhile isSpc)).1 := by rw [hw]
    rw [hwfst] at hc
    exact mem_takeWhile hc
  have hr3 : ∀ c ∈ r3, c ∈ r0 := by
    intro c hc
    apply hl2
    have hwsnd : r3 = (takeWord (r1.dropWhile isSpc)).2 := by rw [hw]
    rw [hwsnd] at hc
    exact mem_dropWhile hc
  split at h
  · next r4 heq =>
    rcases hlz : lazyToEndField r4 with _ | v2 <;> rw [hlz] at h
    · simp at h
    cases h
    refine ⟨hn, ?_⟩
    intro c hc
    have h4 : c ∈ r4 := lazyToEndField_sub hlz c hc
    have h5 : c ∈ r3.dropWhile isSpc := by rw [heq]; simp [h4]
    exact hr3 c (mem_dropWhile h5)
  · simp at h

theorem varDeclMatch_sub {l kw n v : Line} (h : varDeclMatch l = some (kw, n, v)) :
    (∀ c ∈ n, c ∈ l) ∧ (∀ c ∈ v, c ∈ l) := by
  unfold varDeclMatch at h
  try dsimp only at h
  rcases h1 : varTryKw ("var".data) (l.dropWhile isSpc) with _ | r <;>
    rw [h1] at h <;> try dsimp only at h
  · rcases h2 : varTryKw ("let".data) (l.dropWhile isSpc) with _ | r <;>
      rw [h2] at h <;> try dsimp only at h
    · exact ⟨fun c hc => mem_dropWhile ((varTryKw_sub h).1 c hc),
             fun c hc => mem_dropWhile ((varTryKw_sub h).2 c hc)⟩
    · cases h
      exact ⟨fun c hc => mem_dropWhile ((varTryKw_sub h2).1 c hc),
             fun c hc => mem_dropWhile ((varTryKw_sub h2).2 c hc)⟩
  · cases h
    exact ⟨fun c hc => mem_dropWhile ((varTryKw_sub h1).1 c hc),
           fun c hc => mem_dropWhile ((varTryKw_sub h1).2 c hc)⟩

theorem returnTail_sub {s v : Line} (h : returnTail s = some v) :
    ∀ c ∈ v, c ∈ s := by
  unfold returnTail at h
  try dsimp only at h
  split at h
  · simp at h
  · split at h
    · split at h
      · next hlen =>
        cases h
        intro c hc
        rw [List.mem_singleton] at hc
        subst hc
        refine mem_takeWhile (p := isSpc) (mem_lastCh ?_)
        intro hnil
        rw [hnil] at hlen
        simp at hlen
      · simp at h
    · split at h
      · cases h
        intro c hc
        exact mem_dropWhile (mem_dropLast hc)
      · cases h
        intro c hc
        exact mem_dropWhile hc

theorem returnSearch_sub : ∀ {l v : Line}, returnSearch l = some v → ∀ c ∈ v, c ∈ l
  | [], v, h => by simp [returnSearch] at h
  | c0 :: cs, v, h => by
    rw [returnSearch] at h
    rcases hsp : stripPfx ("return".data) (c0 :: cs) with _ | rest <;>
      rw [hsp] at h <;> try dsimp only at h
    · intro c hc
      exact List.mem_cons_of_mem c0 (returnSearch_sub h c hc)
    · rcases hrt : returnTail rest with _ | v2 <;> rw [hrt] at h <;> try dsimp only at h
      · intro c hc
        exact List.mem_cons_of_mem c0 (returnSearch_sub h c hc)
      · cases h
        intro c hc
        have h2 := returnTail_sub hrt c hc
        rw [stripPfx_eq_append hsp]
        simp [h2]

theorem consoleLogReplaced_mem {l : Line} :
    ∀ c ∈ consoleLogReplaced l, c ∈ l ∨ c ∈ ("print()".data) := by
  unfold consoleLogReplaced
  split
  · exact fun c hc => Or.inl hc
  · next before rest hss =>
    split
    · exact fun c hc => Or.inl hc
    · next grp post hsl =>
      try dsimp only
      have hl : l = before ++ ("console.log(".data) ++ rest := splitAtSub_eq hss
      have hrest : rest = grp ++ ')' :: post := splitAtLast_eq hsl
      have hbef : ∀ c ∈ before, c ∈ l := fun c hc => by rw [hl]; simp [hc]
      have hgrp : ∀ c ∈ grp, c ∈ l := fun c hc => by rw [hl, hrest]; simp [hc]
      have hpost : ∀ c ∈ post, c ∈ l := fun c hc => by rw [hl, hrest]; simp [hc]
      split
      · next t =>
        intro c hc
        repeat' (rw [List.mem_append] at hc; rcases hc with hc | hc)
        all_goals first
        | exact Or.inl (hbef c hc)
        | (rw [List.mem_cons] at hc
           rcases hc with rfl | hc
           · exact Or.inr (by decide)
           · exact Or.inl (hpost c (List.mem_cons_of_mem ';' hc)))
        | exact Or.inl (hgrp c hc)
        | (refine Or.inr ?_
           revert hc
           revert c
           decide)
      · next t2 =>
        intro c hc
        repeat' (rw [List.mem_append] at hc; rcases hc with hc | hc)
        all_goals first
        | exact Or.inl (hbef c hc)
        | (rw [List.mem_cons] at hc
           rcases hc with rfl | hc
           · exact Or.inr (by decide)
           · exact Or.inl (hpost c hc))
        | exact Or.inl (hgrp c hc)
        | (refine Or.inr ?_
           revert hc
           revert c
           decide)

theorem mem_joinCommaSp : ∀ {ls : List Line} {c : Char}, c ∈ joinCommaSp ls →
    (∃ x ∈ ls, c ∈ x) ∨ c ∈ (", ".data)
  | [], c, h => by simp [joinCommaSp] at h
  | [x], c, h => by
    rw [joinCommaSp] at h
    exact Or.inl ⟨x, by simp, h⟩
  | x :: y :: ys, c, h => by
    rw [joinCommaSp] at h
    rcases List.mem_append.1 h with h2 | h2
    · rcases List.mem_append.1 h2 with h3 | h3
      · exact Or.inl ⟨x, by simp, h3⟩
      · exact Or.inr h3
    · rcases mem_joinCommaSp h2 with ⟨z, hz, hcz⟩ | h3
      · exact Or.inl ⟨z, List.mem_cons_of_mem x hz, hcz⟩
      · exact Or.inr h3

theorem mem_swiftParams {params : Line} {c : Char} (h : c ∈ swiftParams params) :
    c ∈ params ∨ c ∈ (": Any, ".data) := by
  unfold swiftParams at h
  rcases mem_joinCommaSp h with ⟨x, hx, hcx⟩ | h2
  · obtain ⟨part, hpart, rfl⟩ := List.mem_map.1 hx
    dsimp only at hcx
    split at hcx
    · exact Or.inl (mem_splitOnComma hpart (mem_trimL hcx))
    · rcases List.mem_append.1 hcx with h3 | h3
      · exact Or.inl (mem_splitOnComma hpart (mem_trimL h3))
      · refine Or.inr ?_
        have heqs : ((": Any, ".data : Line)) = (": Any".data) ++ (", ".data) := by decide
        rw [heqs]
        exact List.mem_append_left _ h3
  · refine Or.inr ?_
    have heqs : ((": Any, ".data : Line)) = (": Any".data) ++ (", ".data) := by decide
    rw [heqs]
    exact List.mem_append_right _ h2

/-- All characters the JavaScript→Swift line templates can introduce on
a line without brace characters whose header is not a matched
three-clause for-header. -/
def swConstChars : Line := ("func ():Ay,letvar=i!/MNULCOVERSIDp".data)

theorem jsToSwiftLine_mem {l : Line} {ind : Int}
    (hb : '\x7b' ∉ l) (hd : '\x7d' ∉ l) (hfh : forHeaderMatch l = none) :
    ∀ x ∈ (GitHubApi.jsToSwiftLine l ind).1, x ∈ l ∨ x ∈ swConstChars := by
  unfold GitHubApi.jsToSwiftLine
  split
  · next n p rest hfd =>
    have hsub := funcDeclSearch_sub hfd
    have hcont : rest.contains '\x7b' = false := by
      cases hq : rest.contains '\x7b'
      · rfl
      · exact absurd (hsub.2.2 '\x7b' (by simpa using hq)) hb
    rw [hcont]
    simp only [Bool.false_eq_true, if_false]
    intro x hx
    repeat' (rw [List.mem_append] at hx; rcases hx with hx | hx)
    all_goals first
    | exact Or.inl (hsub.1 x hx)
    | (rw [List.mem_cons] at hx
       rcases hx with rfl | hx
       · exact Or.inr (by decide)
       · rcases mem_swiftParams hx with h2 | h2
         · exact Or.inl (hsub.2.1 x h2)
         · exact Or.inr ((by decide :
             ∀ y ∈ ((": Any, ".data : Line)), y ∈ swConstChars) x h2))
    | (refine Or.inr ?_
       revert hx
       revert x
       decide)
  rw [if_neg (fun he => hb (by rw [he]; simp)),
    if_neg (fun he => hd (by rw [he]; simp))]
  split
  · next kw n v hvd =>
    have hsub := varDeclMatch_sub hvd
    split
    all_goals
      intro x hx
    all_goals
      repeat' (rw [List.mem_append] at hx; rcases hx with hx | hx)
    all_goals first
    | exact Or.inl (hsub.1 x hx)
    | exact Or.inl (hsub.2 x hx)
    | (refine Or.inr ?_
       revert hx
       revert x
       decide)
  split
  · next cond rest hif =>
    have hsub := ifMatchJs_sub hif
    have hcont : rest.contains '\x7b' = false := by
      cases hq : rest.contains '\x7b'
      · rfl
      · exact absurd (hsub.2 '\x7b' (by simpa using hq)) hb
    try dsimp only
    rw [hcont]
    simp only [Bool.false_eq_true, if_false]
    intro x hx
    repeat' (rw [List.mem_append] at hx; rcases hx with hx | hx)
    all_goals first
    | (rcases mem_replaceNeqOps hx with h2 | h2 | h2
       · rcases mem_replaceEqOps h2 with h3 | h3
         · exact Or.inl (hsub.1 x (mem_trimL h3))
         · subst h3
           exact Or.inr (by decide)
       · subst h2
         exact Or.inr (by decide)
       · subst h2
         exact Or.inr (by decide))
    | (refine Or.inr ?_
       revert hx
       revert x
       decide)
  split
  · split
    · next cp hcp =>
      rw [hfh] at hcp
      simp at hcp
    · intro x hx
      repeat' (rw [List.mem_append] at hx; rcases hx with hx | hx)
      all_goals first
      | exact Or.inl hx
      | (refine Or.inr ?_
         revert hx
         revert x
         decide)
  split
  · intro x hx
    rcases consoleLogReplaced_mem x hx with h2 | h2
    · exact Or.inl h2
    · exact Or.inr ((by decide :
        ∀ y ∈ (("print()".data : Line)), y ∈ swConstChars) x h2)
  split
  · split
    · next v hrs =>
      intro x hx
      repeat' (rw [List.mem_append] at hx; rcases hx with hx | hx)
      all_goals first
      | exact Or.inl (returnSearch_sub hrs x hx)
      | (refine Or.inr ?_
         revert hx
         revert x
         decide)
    · exact fun x hx => Or.inl hx
  · exact fun x hx => Or.inl hx

theorem jsToSwiftLine_no_brace {l : Line} {ind : Int} {c : Char}
    (hc : c = '\x7b' ∨ c = '\x7d') (hb : '\x7b' ∉ l) (hd : '\x7d' ∉ l)
    (hfh : forHeaderMatch l = none) : c ∉ (GitHubApi.jsToSwiftLine l ind).1 := by
  intro hmem
  rcases jsToSwiftLine_mem hb hd hfh c hmem with h | h
  · rcases hc with rfl | rfl
    · exact hb h
    · exact hd h
  · rcases hc with rfl | rfl <;> revert h <;> decide

/-! ### Brace counting for the JavaScript→Swift conversion -/

/-- Total occurrences of a character over a list of lines. -/
def cntC (c : Char) (ls : List Line) : Nat := (ls.map (fun x => x.count c)).sum

theorem cntC_append (c : Char) (a b : List Line) :
    cntC c (a ++ b) = cntC c a + cntC c b := by
  simp [cntC]

theorem cntC_cons (c : Char) (x : Line) (ls : List Line) :
    cntC c (x :: ls) = x.count c + cntC c ls := by
  simp [cntC]

/-- Every line splits as leading whitespace, its trim, and trailing
whitespace. -/
theorem trimL_decomp (l : Line) : ∃ s1 s2 : Line,
    (∀ x ∈ s1, isSpc x = true) ∧ (∀ x ∈ s2, isSpc x = true) ∧
    l = s1 ++ trimL l ++ s2 := by
  refine ⟨l.takeWhile isSpc, ((l.dropWhile isSpc).reverse.takeWhile isSpc).reverse,
    fun x hx => List.mem_takeWhile_imp hx, ?_, ?_⟩
  · intro x hx
    rw [List.mem_reverse] at hx
    exact List.mem_takeWhile_imp hx
  · have h1 : l = l.takeWhile isSpc ++ l.dropWhile isSpc :=
      (List.takeWhile_append_dropWhile isSpc l).symm
    have h2 : (l.dropWhile isSpc).reverse =
        (l.dropWhile isSpc).reverse.takeWhile isSpc ++
        (l.dropWhile isSpc).reverse.dropWhile isSpc :=
      (List.takeWhile_append_dropWhile isSpc _).symm
    have h3 := congrArg List.reverse h2
    rw [List.reverse_reverse, List.reverse_append] at h3
    have hd : l.dropWhile isSpc =
        trimL l ++ ((l.dropWhile isSpc).reverse.takeWhile isSpc).reverse := by
      rw [trimL]
      exact h3
    rw [List.append_assoc]
    conv_lhs => rw [h1, hd]

theorem count_trimL {l : Line} {c : Char} (hns : isSpc c = false) :
    (trimL l).count c = l.count c := by
  obtain ⟨s1, s2, h1, h2, hl⟩ := trimL_decomp l
  conv_rhs => rw [hl]
  rw [List.count_append, List.count_append]
  have hc1 : s1.count c = 0 := List.count_eq_zero.mpr
    (fun hmem => by have hy := h1 c hmem; rw [hns] at hy; cases hy)
  have hc2 : s2.count c = 0 := List.count_eq_zero.mpr
    (fun hmem => by have hy := h2 c hmem; rw [hns] at hy; cases hy)
  rw [hc1, hc2]
  omega

/-- Per-line brace preservation of the JS→Swift loop body, for lines
that are a lone brace after trimming or contain no brace and no matched
for-header. -/
theorem jsToSwiftStep_brace {ind : Int} {l : Line} {c : Char}
    (hc : c = '\x7b' ∨ c = '\x7d')
    (hP : trimL l = ['\x7b'] ∨ trimL l = ['\x7d'] ∨
      ('\x7b' ∉ l ∧ '\x7d' ∉ l ∧ forHeaderMatch (trimL l) = none)) :
    cntC c (GitHubApi.jsToSwiftStep ind l).1 = l.count c := by
  have hns : isSpc c = false := by rcases hc with rfl | rfl <;> decide
  have hcount := count_trimL (l := l) hns
  rcases hP with hP | hP | hP
  · have hstep : GitHubApi.jsToSwiftStep ind l =
        ([repeatL ("  ".data) (ind + 1).toNat ++ ['\x7b']], ind + 1) := by
      unfold GitHubApi.jsToSwiftStep
      try dsimp only
      rw [hP]
      rfl
    rw [hstep, ← hcount, hP]
    have hrep : (repeatL ("  ".data) (ind + 1).toNat).count c = 0 :=
      List.count_eq_zero.mpr
        (fun hm => by rcases hc with rfl | rfl <;> exact absurd (mem_repeatL hm) (by decide))
    simp [cntC, List.count_append, hrep]
  · have hstep : GitHubApi.jsToSwiftStep ind l =
        ([repeatL ("  ".data) (max 0 (ind - 1)).toNat ++ ['\x7d']], max 0 (ind - 1)) := by
      unfold GitHubApi.jsToSwiftStep
      try dsimp only
      rw [hP]
      rfl
    rw [hstep, ← hcount, hP]
    have hrep : (repeatL ("  ".data) (max 0 (ind - 1)).toNat).count c = 0 :=
      List.count_eq_zero.mpr
        (fun hm => by rcases hc with rfl | rfl <;> exact absurd (mem_repeatL hm) (by decide))
    simp [cntC, List.count_append, hrep]
  · obtain ⟨hb, hd, hfh⟩ := hP
    have hin : (trimL l).count c = 0 := List.count_eq_zero.mpr
      (fun hm => by
        rcases hc with rfl | rfl
        · exact hb (mem_trimL hm)
        · exact hd (mem_trimL hm))
    unfold GitHubApi.jsToSwiftStep
    try dsimp only
    split
    · next he =>
      have h0 : trimL l = [] := by
        rcases h00 : trimL l with _ | ⟨a, as⟩
        · rfl
        · rw [h00] at he
          simp at he
      rw [← hcount, h0]
      simp [cntC]
    · split
      · rw [← hcount]
        have hrep : (repeatL ("  ".data) ind.toNat).count c = 0 :=
          List.count_eq_zero.mpr
            (fun hm => by rcases hc with rfl | rfl <;>
              exact absurd (mem_repeatL hm) (by decide))
        simp [cntC, List.count_append, hrep]
      · rw [← hcount]
        have hrep : (repeatL ("  ".data)
            (GitHubApi.jsToSwiftLine (trimL l) ind).2.toNat).count c = 0 :=
          List.count_eq_zero.mpr
            (fun hm => by rcases hc with rfl | rfl <;>
              exact absurd (mem_repeatL hm) (by decide))
        have hout : ((GitHubApi.jsToSwiftLine (trimL l) ind).1).count c = 0 :=
          List.count_eq_zero.mpr
            (jsToSwiftLine_no_brace hc (fun hm => hb (mem_trimL hm))
              (fun hm => hd (mem_trimL hm)) hfh)
        simp [cntC, List.count_append, hrep, hout, hin]

theorem jsToSwiftGo_brace : ∀ (ls : List Line) (ind : Int) {c : Char},
    (c = '\x7b' ∨ c = '\x7d') →
    (∀ l ∈ ls, trimL l = ['\x7b'] ∨ trimL l = ['\x7d'] ∨
      ('\x7b' ∉ l ∧ '\x7d' ∉ l ∧ forHeaderMatch (trimL l) = none)) →
    cntC c (GitHubApi.jsToSwiftGo ls ind) = (ls.map (fun l => l.count c)).sum
  | [], ind, c, _, _ => by simp [GitHubApi.jsToSwiftGo, cntC]
  | l :: ls, ind, c, hc, hP => by
    rw [GitHubApi.jsToSwiftGo]
    try dsimp only
    rw [cntC_append, jsToSwiftStep_brace hc (hP l (by simp)),
      jsToSwiftGo_brace ls _ hc (fun y hy => hP y (List.mem_cons_of_mem l hy))]
    simp

theorem count_joinLinesL {c : Char} (hc : ¬(c = '\n')) :
    ∀ (ls : List Line), (joinLinesL ls).count c = cntC c ls
  | [] => by simp [joinLinesL, cntC]
  | [x] => by simp [joinLinesL, cntC]
  | x :: y :: ys => by
    rw [joinLinesL, List.count_append, List.count_cons,
      count_joinLinesL hc (y :: ys), cntC_cons]
    have hne : ('\n' == c) = false := beq_eq_false_iff_ne.mpr (fun h => hc h.symm)
    rw [hne]
    simp only [Bool.false_eq_true, if_false, cntC_cons]
    omega

theorem count_splitLinesL {c : Char} (hc : ¬(c = '\n')) :
    ∀ (x : Line), cntC c (splitLinesL x) = x.count c
  | [] => by simp [splitLinesL, cntC]
  | c0 :: cs => by
    rcases hs : splitLinesL cs with _ | ⟨a, as⟩
    · exact absurd hs (splitLinesL_ne_nil cs)
    · have ih := count_splitLinesL hc cs
      rw [hs] at ih
      have heq : splitLinesL (c0 :: cs) =
          if c0 = '\n' then [] :: a :: as else (c0 :: a) :: as := by
        rw [splitLinesL, hs]
      rw [heq]
      by_cases hc0 : c0 = '\n'
      · rw [if_pos hc0, cntC_cons]
        subst hc0
        rw [List.count_cons]
        have hne : ('\n' == c) = false := beq_eq_false_iff_ne.mpr (fun h => hc h.symm)
        rw [hne]
        simp [ih]
      · rw [if_neg hc0, cntC_cons, List.count_cons, List.count_cons]
        rw [cntC_cons] at ih
        cases hbq : (c0 == c) <;> simp [hbq] <;> omega

/-- C4 (amended): brace balance is preserved by `convertJavaScriptToSwift`
for every brace-balanced source in which each line, after trimming, is a
standalone `\x7b` or `\x7d`, or contains no brace characters and does not
match the three-clause for-header grammar.  (For arbitrary brace-balanced
sources the property fails: see the counterexample.) -/
theorem claim4_brace_balance_amended (src : String)
    (hbal : charCount '\x7b' src = charCount '\x7d' src)
    (hP : ∀ l ∈ splitLinesL src.data, trimL l = ['\x7b'] ∨ trimL l = ['\x7d'] ∨
      ('\x7b' ∉ l ∧ '\x7d' ∉ l ∧ forHeaderMatch (trimL l) = none)) :
    charCount '\x7b' (GitHubApi.convertJavaScriptToSwift src) =
      charCount '\x7d' (GitHubApi.convertJavaScriptToSwift src) := by
  have key : ∀ c : Char, (c = '\x7b' ∨ c = '\x7d') →
      charCount c (GitHubApi.convertJavaScriptToSwift src) = charCount c src := by
    intro c hc
    have hcn : ¬(c = '\n') := by rcases hc with rfl | rfl <;> decide
    unfold charCount
    rw [show (GitHubApi.convertJavaScriptToSwift src).data =
      joinLinesL (GitHubApi.jsToSwiftGo (splitLinesL src.data) 0) from rfl]
    rw [count_joinLinesL hcn, jsToSwiftGo_brace _ _ hc hP]
    exact count_splitLinesL hcn src.data
  rw [key '\x7b' (Or.inl rfl), key '\x7d' (Or.inr rfl)]
  exact hbal

/-- Witness for C4 (amended) at a concrete three-line source: the
hypotheses hold and the conclusion follows by the theorem. -/
theorem claim4_witness :
    (charCount '\x7b' "\x7b\nlet x = 5;\n\x7d" = charCount '\x7d' "\x7b\nlet x = 5;\n\x7d") ∧
    charCount '\x7b' (GitHubApi.convertJavaScriptToSwift "\x7b\nlet x = 5;\n\x7d") =
      charCount '\x7d' (GitHubApi.convertJavaScriptToSwift "\x7b\nlet x = 5;\n\x7d") :=
  ⟨by decide, claim4_brace_balance_amended "\x7b\nlet x = 5;\n\x7d" (by decide) (by decide)⟩
